import Mathlib

/-!
# A shallow embedding of `lexer.go`

The scanner `scanToken` and the driving loop of `main` are translated here
into total Lean functions, and the properties of the scanner are proved about
these definitions.

Conventions of the embedding.

* A Go `string` is a sequence of bytes; it is modelled as a `List Nat` whose
  elements are the byte values (`0 .. 255`).  `input[i]` is a byte read and
  `rune(input[i])` is the code point with the same value, so the three
  `unicode` predicates are only ever applied to Latin-1 code points.
* A run-time panic of Go (index or slice bounds out of range) is an explicit
  outcome, `Outcome.fail`.
* Every `for` loop of the source is a recursion on a fuel counter that is
  initialised with the number of bytes left, `len(input) - pos`.  A loop that
  would still continue with no fuel left yields `Outcome.outOfFuel`;
  `scanToken_fuel_adequate` shows that this never happens.
* Cursor positions are natural numbers (the callers of `scanToken` only pass
  `0 <= pos`); the line counter is a 64-bit Go `int` and `line++` wraps.
* An `error` value is modelled by the data that `fmt.Errorf` formats.
-/

namespace Lexer

/-! ## Outcomes of a computation that may panic -/

/-- The ways in which a computation can fail to return. -/
inductive Fault where
  | indexOutOfRange
  | sliceOutOfRange
  | outOfFuel
  deriving DecidableEq, Repr

/-- Either a returned value or a fault. -/
inductive Outcome (α : Type) where
  | ok (a : α)
  | fail (f : Fault)
  deriving DecidableEq, Repr

/-- Go's `a && b` on possibly panicking operands: `b` is evaluated only when
`a` is true. -/
def andAlso (a b : Outcome Bool) : Outcome Bool :=
  match a with
  | .fail f => .fail f
  | .ok false => .ok false
  | .ok true => b

/-- Go's `a || b` on possibly panicking operands: `b` is evaluated only when
`a` is false. -/
def orElse (a b : Outcome Bool) : Outcome Bool :=
  match a with
  | .fail f => .fail f
  | .ok true => .ok true
  | .ok false => b

/-- Go's `!a` on a possibly panicking operand. -/
def notB (a : Outcome Bool) : Outcome Bool :=
  match a with
  | .fail f => .fail f
  | .ok b => .ok (!b)

/-! ## Strings as byte sequences -/

/-- The bytes of an ASCII string literal (code point = byte for ASCII). -/
def bytes (s : String) : List Nat := s.toList.map Char.toNat

/-- The test `p(input[i])`: the read panics when `i` is not below the length. -/
def test (input : List Nat) (i : Nat) (p : Nat → Bool) : Outcome Bool :=
  match input[i]? with
  | some c => .ok (p c)
  | none => .fail .indexOutOfRange

/-- The test `p(input[pos-1])`: for `pos = 0` the index is `-1` and the read
panics. -/
def testPrev (input : List Nat) (pos : Nat) (p : Nat → Bool) : Outcome Bool :=
  if pos = 0 then .fail .indexOutOfRange else test input (pos - 1) p

/-- The slice expression `input[lo:hi]`, which panics unless
`lo <= hi <= len(input)`. -/
def slice (input : List Nat) (lo hi : Nat) : Outcome (List Nat) :=
  if lo ≤ hi ∧ hi ≤ input.length then .ok ((input.drop lo).take (hi - lo))
  else .fail .sliceOutOfRange

/-- The conversion `string(b)` of a byte `b`: the UTF-8 encoding of the code
point `b` (one byte below 128, two bytes from 128 to 255). -/
def stringOfByte (b : Nat) : List Nat :=
  if b < 128 then [b] else [192 + b / 64, 128 + b % 64]

/-- The expression `string(input[i])`. -/
def stringAt (input : List Nat) (i : Nat) : Outcome (List Nat) :=
  match input[i]? with
  | some c => .ok (stringOfByte c)
  | none => .fail .indexOutOfRange

/-- Whether the byte sequence `s` begins with `p`. -/
def startsWith : List Nat → List Nat → Bool
  | _, [] => true
  | [], _ :: _ => false
  | c :: s, d :: p => c == d && startsWith s p

/-- The function `strings.Contains(s, substr)`: `substr` occurs at some offset
of `s`. -/
def stringsContains : List Nat → List Nat → Bool
  | [], substr => startsWith [] substr
  | c :: s, substr => startsWith (c :: s) substr || stringsContains s substr

/-! ## The `unicode` predicates on Latin-1 code points -/

/-- The predicate `unicode.IsSpace` on a Latin-1 code point:
`\t \n \v \f \r`, space, U+0085 and U+00A0. -/
def IsSpace (r : Nat) : Bool :=
  r == 9 || r == 10 || r == 11 || r == 12 || r == 13 || r == 32 || r == 133 || r == 160

/-- The predicate `unicode.IsLetter` on a Latin-1 code point: `A-Z`, `a-z`,
U+00AA, U+00B5, U+00BA, U+00C0 to U+00D6, U+00D8 to U+00F6 and U+00F8 to
U+00FF. -/
def IsLetter (r : Nat) : Bool :=
  (65 ≤ r && r ≤ 90) || (97 ≤ r && r ≤ 122) || r == 170 || r == 181 || r == 186
    || (192 ≤ r && r ≤ 214) || (216 ≤ r && r ≤ 246) || (248 ≤ r && r ≤ 255)

/-- The predicate `unicode.IsDigit` on a Latin-1 code point: `0-9`. -/
def IsDigit (r : Nat) : Bool := 48 ≤ r && r ≤ 57

/-! ## The data model -/

/-- The token kinds (`TokenType` and its ten constants). -/
inductive TokenType where
  | TokenIdent
  | TokenKeyword
  | TokenInt
  | TokenFloat
  | TokenDelimiter
  | TokenString
  | TokenComment
  | TokenOperator
  | TokenEOF
  | TokenError
  deriving DecidableEq, Repr

open TokenType

/-- The struct `Token`; the field `Type` is spelled `Type_` here. -/
structure Token where
  Type_ : TokenType
  Length : Int
  Line : Int
  Pos : Nat
  Value : List Nat
  deriving DecidableEq, Repr

/-- The four `fmt.Errorf` values of `scanToken`, with the arguments that are
formatted into the message. -/
inductive LexError where
  | unclosedDelimiter (line : Int) (pos : Nat) (delimiter : List Nat)
  | unterminatedString (line : Int) (pos : Nat)
  | unclosedComment (line : Int) (pos : Nat)
  | foreignCharacter (line : Int) (pos : Nat) (c : Nat)
  deriving DecidableEq, Repr

/-- The four results of `scanToken`; `err = none` is the `nil` error. -/
structure ScanResult where
  token : Token
  newPos : Nat
  newLine : Int
  err : Option LexError
  deriving DecidableEq, Repr

/-- The map `keywords`. -/
def keywords : List (List Nat × TokenType) :=
  [ (bytes "break", TokenKeyword), (bytes "case", TokenKeyword), (bytes "chan", TokenKeyword),
    (bytes "const", TokenKeyword), (bytes "continue", TokenKeyword), (bytes "default", TokenKeyword),
    (bytes "defer", TokenKeyword), (bytes "else", TokenKeyword), (bytes "fallthrough", TokenKeyword),
    (bytes "for", TokenKeyword), (bytes "func", TokenKeyword), (bytes "go", TokenKeyword),
    (bytes "goto", TokenKeyword), (bytes "if", TokenKeyword), (bytes "import", TokenKeyword),
    (bytes "interface", TokenKeyword), (bytes "map", TokenKeyword), (bytes "package", TokenKeyword),
    (bytes "range", TokenKeyword), (bytes "return", TokenKeyword), (bytes "select", TokenKeyword),
    (bytes "struct", TokenKeyword), (bytes "switch", TokenKeyword), (bytes "type", TokenKeyword),
    (bytes "var", TokenKeyword) ]

/-- The slice `operators`. -/
def operators : List (List Nat) :=
  [ bytes ":", bytes "+", bytes "-", bytes "=", bytes "*", bytes "/", bytes "%", bytes "<",
    bytes ">", bytes "!", bytes "&", bytes "|", bytes "^",
    bytes "++", bytes "--", bytes "==", bytes "<<", bytes ">>", bytes "&&", bytes "||",
    bytes ":=", bytes "+=", bytes "-=", bytes "*=", bytes "/=", bytes "%=", bytes "<=",
    bytes ">=", bytes "!=", bytes "&=", bytes "|=", bytes "^=", bytes "<-", bytes "->" ]

/-- The function `Contains`: a linear search for `str` in `slice`. -/
def Contains : List (List Nat) → List Nat → Bool
  | [], _ => false
  | item :: rest, str => if item = str then true else Contains rest str

/-- The increment `line++` of a 64-bit `int`, which wraps around. -/
def incLine (line : Int) : Int := (line + 1 + 2 ^ 63) % 2 ^ 64 - 2 ^ 63

/-! ## The loops of `scanToken` -/

/-- The loop guard `pos < len(input)`. -/
def inBounds (input : List Nat) (pos : Nat) : Outcome Bool :=
  .ok (decide (pos < input.length))

/-- The test `input[pos] == '\r' && input[pos+1] == '\n'`. -/
def crlfAt (input : List Nat) (pos : Nat) : Outcome Bool :=
  andAlso (test input pos (· == 13)) (test input (pos + 1) (· == 10))

/-- The condition of the whitespace loop (line 85):
`pos < len(input) && (unicode.IsSpace(rune(input[pos])) || input[pos] == '\t'
  || (input[pos] == '\r' && input[pos+1] == '\n'))`. -/
def skipCond (input : List Nat) (pos : Nat) : Outcome Bool :=
  andAlso (inBounds input pos)
    (orElse (orElse (test input pos IsSpace) (test input pos (· == 9))) (crlfAt input pos))

/-- The whitespace loop (lines 85 to 90): the body increments `line` when
`input[pos] == '\r' && input[pos+1] == '\n'` and then increments `pos`. -/
def skipSpace (input : List Nat) : Nat → Nat → Int → Outcome (Nat × Int)
  | 0, pos, line =>
    match skipCond input pos with
    | .fail f => .fail f
    | .ok false => .ok (pos, line)
    | .ok true => .fail .outOfFuel
  | fuel + 1, pos, line =>
    match skipCond input pos with
    | .fail f => .fail f
    | .ok false => .ok (pos, line)
    | .ok true =>
      match crlfAt input pos with
      | .fail f => .fail f
      | .ok true => skipSpace input fuel (pos + 1) (incLine line)
      | .ok false => skipSpace input fuel (pos + 1) line

/-- A loop `for cond { if brk { break }; pos++ }` over the cursor. -/
def scanLoop (cond brk : Nat → Outcome Bool) : Nat → Nat → Outcome Nat
  | 0, pos =>
    match cond pos with
    | .fail f => .fail f
    | .ok false => .ok pos
    | .ok true => .fail .outOfFuel
  | fuel + 1, pos =>
    match cond pos with
    | .fail f => .fail f
    | .ok false => .ok pos
    | .ok true =>
      match brk pos with
      | .fail f => .fail f
      | .ok true => .ok pos
      | .ok false => scanLoop cond brk fuel (pos + 1)

/-- The body of a loop without a `break` statement. -/
def noBreak (_ : Nat) : Outcome Bool := .ok false

/-- Condition of the identifier loop (line 102). -/
def identCond (input : List Nat) (pos : Nat) : Outcome Bool :=
  andAlso (inBounds input pos) (orElse (test input pos IsLetter) (test input pos IsDigit))

/-- Condition of the loop of the underscore case (line 113); `&&` binds
tighter than `||`, so `input[pos] == '_'` is outside the guard
`pos < len(input)`. -/
def underscoreCond (input : List Nat) (pos : Nat) : Outcome Bool :=
  orElse (andAlso (inBounds input pos) (orElse (test input pos IsLetter) (test input pos IsDigit)))
    (test input pos (· == 95))

/-- Condition of the number loop (line 120). -/
def numberCond (input : List Nat) (pos : Nat) : Outcome Bool :=
  andAlso (inBounds input pos) (orElse (test input pos IsDigit) (test input pos (· == 46)))

/-- Condition of the loop of the leading-dot case (line 132). -/
def fractionCond (input : List Nat) (pos : Nat) : Outcome Bool :=
  andAlso (inBounds input pos) (test input (pos + 1) IsDigit)

/-- Condition of the four loops that look for a closing byte `close`
(lines 144, 157, 170 and 186): `pos < len(input) && input[pos] != close`. -/
def untilCond (input : List Nat) (close : Nat) (pos : Nat) : Outcome Bool :=
  andAlso (inBounds input pos) (test input pos (· != close))

/-- The `break` test of those four loops: `input[pos] == close`. -/
def untilBreak (input : List Nat) (close : Nat) (pos : Nat) : Outcome Bool :=
  test input pos (· == close)

/-- Condition of the single-line comment loop (line 205). -/
def lineCommentCond (input : List Nat) (pos : Nat) : Outcome Bool :=
  andAlso (inBounds input pos) (notB (crlfAt input pos))

/-- The test `input[pos] == '*' && input[pos+1] == '/'`. -/
def starSlashAt (input : List Nat) (pos : Nat) : Outcome Bool :=
  andAlso (test input pos (· == 42)) (test input (pos + 1) (· == 47))

/-- Condition of the multi-line comment loop (line 215). -/
def blockCommentCond (input : List Nat) (pos : Nat) : Outcome Bool :=
  andAlso (inBounds input pos) (notB (starSlashAt input pos))

/-! ## The cases of the `switch` of `scanToken` -/

/-- A `case cond:` of the `switch`, or an `if cond`: a panic while evaluating
`cond` is propagated. -/
def branch {α : Type} (cond : Outcome Bool) (body rest : Outcome α) : Outcome α :=
  match cond with
  | .fail f => .fail f
  | .ok true => body
  | .ok false => rest

/-- A statement that evaluates `e` and continues with its value. -/
def andThen {α β : Type} (e : Outcome α) (k : α → Outcome β) : Outcome β :=
  match e with
  | .fail f => .fail f
  | .ok a => k a

/-- Lines 101 to 110: identifier or keyword. -/
def scanIdentifier (input : List Nat) (start : Nat) (line : Int) : Outcome ScanResult :=
  andThen (scanLoop (identCond input) noBreak (input.length - start) start) fun pos =>
  andThen (slice input start pos) fun identifier =>
  match keywords.lookup identifier with
  | some keywordType =>
    .ok ⟨⟨keywordType, (pos : Int) - start, line, start, identifier⟩, pos, line, none⟩
  | none =>
    .ok ⟨⟨TokenIdent, (pos : Int) - start, line, start, identifier⟩, pos, line, none⟩

/-- Lines 112 to 116: identifier that begins with an underscore. -/
def scanUnderscore (input : List Nat) (start : Nat) (line : Int) : Outcome ScanResult :=
  andThen (scanLoop (underscoreCond input) noBreak (input.length - start) start) fun pos =>
  andThen (slice input start pos) fun value =>
  .ok ⟨⟨TokenIdent, (pos : Int) - start, line, start, value⟩, pos, line, none⟩

/-- Lines 119 to 128: integer or float literal. -/
def scanNumber (input : List Nat) (start : Nat) (line : Int) : Outcome ScanResult :=
  andThen (scanLoop (numberCond input) noBreak (input.length - start) start) fun pos =>
  andThen (slice input start pos) fun numberFound =>
  andThen (slice input start pos) fun sliced =>
  if stringsContains sliced (bytes ".") then
    .ok ⟨⟨TokenFloat, (pos : Int) - start, line, start, numberFound⟩, pos, line, none⟩
  else
    .ok ⟨⟨TokenInt, (pos : Int) - start, line, start, numberFound⟩, pos, line, none⟩

/-- Lines 131 to 136: float literal that begins with the dot. -/
def scanFraction (input : List Nat) (start : Nat) (line : Int) : Outcome ScanResult :=
  andThen (scanLoop (fractionCond input) noBreak (input.length - start) start) fun pos =>
  andThen (slice input start (pos + 1)) fun subunit =>
  .ok ⟨⟨TokenFloat, (pos : Int) - start + 1, line, start, subunit⟩, pos + 1, line, none⟩

/-- Lines 142 to 153, 155 to 166 and 168 to 179: the look-ahead for the closing
bracket `close` after an opening bracket at `start`. -/
def scanBracket (input : List Nat) (start : Nat) (line : Int) (close : Nat) :
    Outcome ScanResult :=
  andThen (scanLoop (untilCond input close) (untilBreak input close)
    (input.length - (start + 1)) (start + 1)) fun pos =>
  if pos ≥ input.length then
    andThen (slice input start pos) fun value =>
    andThen (stringAt input start) fun delimiter =>
    .ok ⟨⟨TokenError, (pos : Int) - start, line, start, value⟩, pos + 1, line,
      some (.unclosedDelimiter line start delimiter)⟩
  else
    andThen (stringAt input start) fun value =>
    .ok ⟨⟨TokenDelimiter, 1, line, start, value⟩, start + 1, line, none⟩

/-- The condition of the delimiter case (lines 138 and 139). -/
def delimiterCond (input : List Nat) (pos : Nat) : Outcome Bool :=
  orElse (orElse (orElse (orElse (orElse (orElse (orElse (orElse
    (test input pos (· == 40)) (test input pos (· == 41))) (test input pos (· == 91)))
    (test input pos (· == 93))) (test input pos (· == 123))) (test input pos (· == 125)))
    (test input pos (· == 44))) (test input pos (· == 59)))
    (andAlso (andAlso (test input pos (· == 46)) (testPrev input pos IsLetter))
      (test input (pos + 1) IsLetter))

/-- Lines 141 to 181: delimiter. -/
def scanDelimiter (input : List Nat) (pos : Nat) (line : Int) : Outcome ScanResult :=
  branch (test input pos (· == 40)) (scanBracket input pos line 41) <|
  branch (test input pos (· == 91)) (scanBracket input pos line 93) <|
  branch (test input pos (· == 123)) (scanBracket input pos line 125) <|
  andThen (stringAt input pos) fun value =>
  .ok ⟨⟨TokenDelimiter, 1, line, pos, value⟩, pos + 1, line, none⟩

/-- Lines 184 to 196: string literal. -/
def scanString (input : List Nat) (start : Nat) (line : Int) : Outcome ScanResult :=
  andThen (scanLoop (untilCond input 34) (untilBreak input 34)
    (input.length - (start + 1)) (start + 1)) fun pos =>
  if pos ≥ input.length then
    andThen (slice input start pos) fun value =>
    .ok ⟨⟨TokenError, (pos : Int) - start, line, start, value⟩, pos + 1, line,
      some (.unterminatedString line start)⟩
  else
    andThen (slice input (start + 1) pos) fun stringFound =>
    .ok ⟨⟨TokenString, (pos : Int) - start + 1 - 2, line, start, stringFound⟩, pos + 1, line,
      none⟩

/-- Lines 203 to 209: single-line comment; `pos0` is the offset of the first
slash. -/
def scanLineComment (input : List Nat) (pos0 : Nat) (line : Int) : Outcome ScanResult :=
  let start := pos0 + 2
  andThen (scanLoop (lineCommentCond input) noBreak (input.length - (start + 1)) (start + 1))
    fun pos =>
  andThen (slice input start pos) fun comment =>
  .ok ⟨⟨TokenComment, (pos : Int) - start, line, start, comment⟩, pos, line, none⟩

/-- Lines 213 to 225: multi-line comment; `pos0` is the offset of the slash. -/
def scanBlockComment (input : List Nat) (pos0 : Nat) (line : Int) : Outcome ScanResult :=
  let start := pos0 + 2
  andThen (scanLoop (blockCommentCond input) (starSlashAt input) (input.length - (start + 1))
    (start + 1)) fun pos =>
  if pos ≥ input.length then
    andThen (slice input (start - 2) pos) fun value =>
    .ok ⟨⟨TokenError, (pos : Int) - start, line, start, value⟩, pos + 1, line,
      some (.unclosedComment line start)⟩
  else
    andThen (slice input start pos) fun comment =>
    .ok ⟨⟨TokenComment, (pos : Int) - start + 1 - 2, line, start, comment⟩, pos + 2, line, none⟩

/-- Lines 229 to 233: operator of one or two characters. -/
def scanOperatorToken (input : List Nat) (pos : Nat) (line : Int) : Outcome ScanResult :=
  andThen (stringAt input (pos + 1)) fun next =>
  if Contains operators next then
    andThen (slice input pos (pos + 2)) fun value =>
    .ok ⟨⟨TokenOperator, 2, line, pos, value⟩, pos + 2, line, none⟩
  else
    andThen (stringAt input pos) fun value =>
    .ok ⟨⟨TokenOperator, 1, line, pos, value⟩, pos + 1, line, none⟩

/-- Lines 199 to 233: comment or operator. -/
def scanOperator (input : List Nat) (pos : Nat) (line : Int) : Outcome ScanResult :=
  branch (andAlso (test input pos (· == 47))
      (orElse (test input (pos + 1) (· == 47)) (test input (pos + 1) (· == 42))))
    (branch (test input (pos + 1) (· == 47)) (scanLineComment input pos line) <|
     branch (test input (pos + 1) (· == 42)) (scanBlockComment input pos line) <|
     scanOperatorToken input pos line)
    (scanOperatorToken input pos line)

/-- Line 236: a character that is not part of the language. -/
def scanForeign (input : List Nat) (pos : Nat) (line : Int) : Outcome ScanResult :=
  andThen (stringAt input pos) fun value =>
  match input[pos]? with
  | none => .fail .indexOutOfRange
  | some c =>
    .ok ⟨⟨TokenError, 1, line, pos, value⟩, pos + 1, line, some (.foreignCharacter line pos c)⟩

/-- The `switch` of lines 98 to 237, entered with `pos < len(input)`. -/
def classify (input : List Nat) (pos : Nat) (line : Int) : Outcome ScanResult :=
  branch (test input pos IsLetter) (scanIdentifier input pos line) <|
  branch (andAlso (test input pos (· == 95)) (test input (pos + 1) IsLetter))
    (scanUnderscore input pos line) <|
  branch (test input pos IsDigit) (scanNumber input pos line) <|
  branch (andAlso (test input pos (· == 46)) (test input (pos + 1) IsDigit))
    (scanFraction input pos line) <|
  branch (delimiterCond input pos) (scanDelimiter input pos line) <|
  branch (test input pos (· == 34)) (scanString input pos line) <|
  branch (andThen (stringAt input pos) fun s => .ok (Contains operators s))
    (scanOperator input pos line) <|
  scanForeign input pos line

/-- The function `scanToken`. -/
def scanToken (input : List Nat) (pos : Nat) (line : Int) : Outcome ScanResult :=
  andThen (skipSpace input (input.length - pos) pos line) fun cursor =>
  if cursor.1 ≥ input.length then
    .ok ⟨⟨TokenEOF, 0, cursor.2, cursor.1, []⟩, cursor.1, cursor.2, none⟩
  else
    classify input cursor.1 cursor.2

/-! ## The driving loop of `main` -/

/-- A line written to the standard output by the loop. -/
inductive Printed where
  | error (e : LexError)
  | token (t : Token)
  deriving DecidableEq, Repr

/-- What a run of the loop did: the lines it printed, the number of calls of
`scanToken` it made, and the fault that ended it if it did not end normally. -/
structure Run where
  printed : List Printed
  calls : Nat
  fault : Option Fault
  deriving DecidableEq, Repr

/-- The lines printed by one iteration for the results of `scanToken`. -/
def report (r : ScanResult) : List Printed :=
  (match r.err with
    | some e => [Printed.error e]
    | none => []) ++
  (if r.token.Type_ = TokenEOF then [] else [Printed.token r.token])

/-- The loop of lines 253 to 271, with `fuel` bounding the number of
iterations. -/
def mainLoop (input : List Nat) : Nat → Nat → Int → Run
  | 0, pos, _ => if pos < input.length then ⟨[], 0, some .outOfFuel⟩ else ⟨[], 0, none⟩
  | fuel + 1, pos, line =>
    if pos < input.length then
      match scanToken input pos line with
      | .fail f => ⟨[], 1, some f⟩
      | .ok r =>
        if r.token.Type_ = TokenEOF then ⟨report r, 1, none⟩
        else
          let rest := mainLoop input fuel r.newPos r.newLine
          ⟨report r ++ rest.printed, 1 + rest.calls, rest.fault⟩
    else ⟨[], 0, none⟩

/-- The loop started as `main` starts it, at `pos = 0` and `line = 1`, with
one unit of fuel for every byte of the input. -/
def runMain (input : List Nat) : Run := mainLoop input input.length 0 1

/-! ## Auxiliary predicates used in the statements -/

/-- The outcome is not the artificial out-of-fuel fault. -/
def Fuelled {α : Type} (x : Outcome α) : Prop := x ≠ .fail .outOfFuel

/-- An ASCII letter, `A-Z` or `a-z`. -/
def asciiLetter (c : Nat) : Bool := (65 ≤ c && c ≤ 90) || (97 ≤ c && c ≤ 122)

/-- An ASCII digit, `0-9`. -/
def asciiDigit (c : Nat) : Bool := 48 ≤ c && c ≤ 57

/-- The spellings in the keyword table. -/
def keywordSpellings : List (List Nat) := keywords.map Prod.fst

/-- What every returning case of the `switch` guarantees when it is entered at
offset `start` with line `line`: the cursor moves forward, the error is set
exactly for `TokenError`, the token is not `TokenEOF`, the line is unchanged
and the token does not begin before `start`. -/
def Advances (start : Nat) (line : Int) (r : ScanResult) : Prop :=
  start < r.newPos ∧ (r.err ≠ none ↔ r.token.Type_ = TokenError) ∧
    r.token.Type_ ≠ TokenEOF ∧ r.newLine = line ∧ r.token.Line = line ∧ start ≤ r.token.Pos

/-- The bytes of `input` from offset `lo` up to, not including, offset `hi`. -/
def segment (input : List Nat) (lo hi : Nat) : List Nat := (input.drop lo).take (hi - lo)

/-- The offset `p` is where the whitespace loop that starts at `pos` stops:
the bytes from `pos` up to `p` are white space and the byte at `p`, if there
is one, is not. For `pos <= len(input)` this is the offset of the first
significant byte at or after `pos`, or `len(input)` when there is none. -/
def FirstSignificant (input : List Nat) (pos p : Nat) : Prop :=
  pos ≤ p ∧ (∀ i, pos ≤ i → i < p → ∃ c, input[i]? = some c ∧ IsSpace c = true) ∧
    ∀ c, input[p]? = some c → IsSpace c = false

/-- The number of offsets `i` among the `n` offsets from `pos` on at which a
carriage return is immediately followed by a line feed. -/
def crlfPairs (input : List Nat) : Nat → Nat → Nat
  | _, 0 => 0
  | pos, n + 1 =>
    (if input[pos]? = some 13 ∧ input[pos + 1]? = some 10 then 1 else 0) +
      crlfPairs input (pos + 1) n

/-- The operator alphabet: the bytes of the one-character entries of
`operators`. -/
def operatorAlphabet : List Nat := bytes ":+-=*/%<>!&|^"

/-- The error reports an unterminated bracket, string or comment. -/
def unterminated : Option LexError → Bool
  | some (.unclosedDelimiter _ _ _) => true
  | some (.unterminatedString _ _) => true
  | some (.unclosedComment _ _) => true
  | _ => false

/-- The error reports an unterminated comment. -/
def commentError : Option LexError → Bool
  | some (.unclosedComment _ _) => true
  | _ => false

/-- Where the token of a returning case of the `switch`, entered at offset
`start`, lies: the token ends inside the consumed input; it begins at `start`,
or two bytes later when it is a comment or the error of an unterminated
comment; the new cursor is at most `len(input)`, or exactly `len(input) + 1`
after an unterminated bracket, string or comment; and for every kind but
`TokenComment` and `TokenError` the length is the number of bytes of the
value. -/
def Layout (input : List Nat) (start : Nat) (r : ScanResult) : Prop :=
  (r.token.Pos : Int) + r.token.Length ≤ r.newPos ∧
    (r.token.Pos = start ∨
      r.token.Pos = start + 2 ∧ (r.token.Type_ = TokenComment ∨ commentError r.err = true)) ∧
    (r.token.Type_ = TokenComment ∨ commentError r.err = true → r.token.Pos = start + 2) ∧
    (r.newPos ≤ input.length ∨ r.newPos = input.length + 1 ∧ unterminated r.err = true) ∧
    (unterminated r.err = true → r.newPos = input.length + 1) ∧
    (r.token.Type_ ≠ TokenComment → r.token.Type_ ≠ TokenError →
      r.token.Length = r.token.Value.length)

/-- The consumed span of a string or comment token of a case entered at offset
`start`: the value between the stripped delimiters. -/
def RoundTrip (input : List Nat) (start : Nat) (r : ScanResult) : Prop :=
  (r.token.Type_ = TokenString →
      segment input start r.newPos = 34 :: (r.token.Value ++ [34])) ∧
    (r.token.Type_ = TokenComment →
      segment input start r.newPos = 47 :: 47 :: r.token.Value ∨
      segment input start r.newPos = 47 :: 42 :: (r.token.Value ++ [42, 47]))


/-! ## Basic facts about the control operators -/

theorem andThen_eq_ok {α β : Type} {e : Outcome α} {k : α → Outcome β} {b : β} :
    andThen e k = .ok b ↔ ∃ a, e = .ok a ∧ k a = .ok b := by
  cases e <;> simp [andThen]

theorem branch_eq_ok {α : Type} {c : Outcome Bool} {t e : Outcome α} {b : α} :
    branch c t e = .ok b ↔ (c = .ok true ∧ t = .ok b) ∨ (c = .ok false ∧ e = .ok b) := by
  rcases c with (_ | _) | _ <;> simp [branch]

theorem test_of_get {input : List Nat} {i c : Nat} (h : input[i]? = some c) (p : Nat → Bool) :
    test input i p = .ok (p c) := by
  simp [test, h]

theorem test_eq_ok {input : List Nat} {i : Nat} {p : Nat → Bool} {b : Bool} :
    test input i p = .ok b ↔ ∃ c, input[i]? = some c ∧ p c = b := by
  unfold test
  cases h : input[i]? <;> simp

theorem test_ne_outOfFuel (input : List Nat) (i : Nat) (p : Nat → Bool) :
    test input i p ≠ .fail .outOfFuel := by
  unfold test
  cases input[i]? <;> simp

theorem get_of_lt {input : List Nat} {i : Nat} (h : i < input.length) :
    ∃ c, input[i]? = some c := ⟨input[i], List.getElem?_eq_getElem h⟩

theorem lt_of_get {input : List Nat} {i c : Nat} (h : input[i]? = some c) :
    i < input.length := by
  by_contra hn
  rw [List.getElem?_eq_none (by omega)] at h
  exact Option.noConfusion h

/-! ## The generic loop -/

theorem scanLoop_le {cond brk : Nat → Outcome Bool} :
    ∀ (fuel pos q : Nat), scanLoop cond brk fuel pos = .ok q → pos ≤ q := by
  intro fuel
  induction fuel with
  | zero =>
    intro pos q h
    unfold scanLoop at h
    rcases hc : cond pos with (_ | _) | _ <;> simp [hc] at h
    omega
  | succ n ih =>
    intro pos q h
    unfold scanLoop at h
    rcases hc : cond pos with (_ | _) | _ <;> simp [hc] at h
    · omega
    · rcases hb : brk pos with (_ | _) | _ <;> simp [hb] at h
      · have := ih _ _ h
        omega
      · omega

theorem scanLoop_lt {cond brk : Nat → Outcome Bool} {fuel pos q : Nat}
    (hc : cond pos = .ok true) (hb : brk pos = .ok false)
    (h : scanLoop cond brk fuel pos = .ok q) : pos < q := by
  cases fuel with
  | zero => unfold scanLoop at h; simp [hc] at h
  | succ n =>
    unfold scanLoop at h
    simp [hc, hb] at h
    have := scanLoop_le _ _ _ h
    omega

/-- The loop stops at the first position where the condition is false. -/
theorem scanLoop_stop {cond brk : Nat → Outcome Bool} :
    ∀ (fuel pos q : Nat), scanLoop cond brk fuel pos = .ok q →
      cond q = .ok false ∨ brk q = .ok true := by
  intro fuel
  induction fuel with
  | zero =>
    intro pos q h
    unfold scanLoop at h
    rcases hc : cond pos with (_ | _) | _ <;> simp [hc] at h
    subst h; exact Or.inl hc
  | succ n ih =>
    intro pos q h
    unfold scanLoop at h
    rcases hc : cond pos with (_ | _) | _ <;> simp [hc] at h
    · subst h; exact Or.inl hc
    · rcases hb : brk pos with (_ | _) | _ <;> simp [hb] at h
      · exact ih _ _ h
      · subst h; exact Or.inr hb

/-- A loop whose condition holds from `pos` up to `q` and fails at `q`
returns `q`. -/
theorem scanLoop_run {cond brk : Nat → Outcome Bool} (q : Nat) :
    ∀ (fuel pos : Nat), pos ≤ q → q - pos ≤ fuel →
      (∀ i, pos ≤ i → i < q → cond i = .ok true ∧ brk i = .ok false) →
      cond q = .ok false → scanLoop cond brk fuel pos = .ok q := by
  intro fuel
  induction fuel with
  | zero =>
    intro pos h1 h2 _ hq
    have : pos = q := by omega
    subst this
    unfold scanLoop; simp [hq]
  | succ n ih =>
    intro pos h1 h2 hall hq
    unfold scanLoop
    rcases Nat.eq_or_lt_of_le h1 with h | h
    · subst h; simp [hq]
    · obtain ⟨hc, hb⟩ := hall pos (le_refl _) h
      simp only [hc, hb]
      exact ih (pos + 1) (by omega) (by omega) (fun i hi hi2 => hall i (by omega) hi2) hq

/-- A loop whose condition holds from `pos` up to `q` and panics at `q`
panics. -/
theorem scanLoop_fail {cond brk : Nat → Outcome Bool} (q : Nat) (f : Fault) :
    ∀ (fuel pos : Nat), pos ≤ q → q - pos ≤ fuel →
      (∀ i, pos ≤ i → i < q → cond i = .ok true ∧ brk i = .ok false) →
      cond q = .fail f → scanLoop cond brk fuel pos = .fail f := by
  intro fuel
  induction fuel with
  | zero =>
    intro pos h1 h2 _ hq
    have : pos = q := by omega
    subst this
    unfold scanLoop; simp [hq]
  | succ n ih =>
    intro pos h1 h2 hall hq
    unfold scanLoop
    rcases Nat.eq_or_lt_of_le h1 with h | h
    · subst h; simp [hq]
    · obtain ⟨hc, hb⟩ := hall pos (le_refl _) h
      simp only [hc, hb]
      exact ih (pos + 1) (by omega) (by omega) (fun i hi hi2 => hall i (by omega) hi2) hq

/-- Fuel adequacy of the generic loop: when the condition can only hold below
`n`, `n - pos` units of fuel are never used up. -/
theorem scanLoop_fuel {cond brk : Nat → Outcome Bool} (n : Nat)
    (hcond : ∀ p, cond p = .ok true → p < n)
    (hc : ∀ p, cond p ≠ .fail .outOfFuel) (hb : ∀ p, brk p ≠ .fail .outOfFuel) :
    ∀ (fuel pos : Nat), n - pos ≤ fuel → scanLoop cond brk fuel pos ≠ .fail .outOfFuel := by
  intro fuel
  induction fuel with
  | zero =>
    intro pos h
    unfold scanLoop
    rcases hcp : cond pos with (_ | _) | f
    · simp
    · have := hcond pos hcp; omega
    · have := hc pos; rw [hcp] at this; simpa using this
  | succ k ih =>
    intro pos h
    unfold scanLoop
    rcases hcp : cond pos with (_ | _) | f
    · simp
    · rcases hbp : brk pos with (_ | _) | g
      · simp only; exact ih (pos + 1) (by omega)
      · simp
      · have := hb pos; rw [hbp] at this; simpa using this
    · have := hc pos; rw [hcp] at this; simpa using this


/-! ## The whitespace loop -/

theorem inBounds_of_lt {input : List Nat} {pos : Nat} (h : pos < input.length) :
    inBounds input pos = .ok true := by
  simp [inBounds, h]

theorem inBounds_of_ge {input : List Nat} {pos : Nat} (h : input.length ≤ pos) :
    inBounds input pos = .ok false := by
  simp [inBounds]; omega

theorem skipCond_of_get {input : List Nat} {pos c : Nat} (h : input[pos]? = some c) :
    skipCond input pos = .ok (IsSpace c) := by
  have hlt := lt_of_get h
  unfold skipCond crlfAt
  rw [inBounds_of_lt hlt, test_of_get h, test_of_get h, test_of_get h]
  by_cases hs : IsSpace c = true
  · simp [andAlso, orElse, hs]
  · have h9 : (c == 9) = false := by
      cases h9 : (c == 9) with
      | false => rfl
      | true => exact absurd (by simp at h9; subst h9; rfl) hs
    have h13 : (c == 13) = false := by
      cases h13 : (c == 13) with
      | false => rfl
      | true => exact absurd (by simp at h13; subst h13; rfl) hs
    simp only [Bool.not_eq_true] at hs
    simp [andAlso, orElse, hs, h9, h13]

theorem skipCond_of_ge {input : List Nat} {pos : Nat} (h : input.length ≤ pos) :
    skipCond input pos = .ok false := by
  unfold skipCond
  rw [inBounds_of_ge h]; rfl

theorem skipCond_ne_outOfFuel (input : List Nat) (pos : Nat) :
    skipCond input pos ≠ .fail .outOfFuel := by
  by_cases h : pos < input.length
  · obtain ⟨c, hc⟩ := get_of_lt h
    rw [skipCond_of_get hc]; simp
  · rw [skipCond_of_ge (by omega)]; simp

theorem crlfAt_ne_outOfFuel (input : List Nat) (pos : Nat) :
    crlfAt input pos ≠ .fail .outOfFuel := by
  unfold crlfAt test
  cases input[pos]? <;> cases input[pos + 1]? <;> simp [andAlso] <;> split <;> simp_all

theorem skipSpace_le {input : List Nat} :
    ∀ (fuel pos : Nat) (line : Int) (c : Nat × Int),
      skipSpace input fuel pos line = .ok c → pos ≤ c.1 := by
  intro fuel
  induction fuel with
  | zero =>
    intro pos line c h
    unfold skipSpace at h
    rcases hc : skipCond input pos with (_ | _) | _ <;> simp [hc] at h
    subst h; simp
  | succ n ih =>
    intro pos line c h
    unfold skipSpace at h
    rcases hc : skipCond input pos with (_ | _) | _ <;> simp [hc] at h
    · subst h; simp
    · rcases hb : crlfAt input pos with (_ | _) | _ <;> simp [hb] at h
      · have := ih _ _ _ h; omega
      · have := ih _ _ _ h; omega

theorem skipSpace_stop {input : List Nat} :
    ∀ (fuel pos : Nat) (line : Int) (c : Nat × Int),
      skipSpace input fuel pos line = .ok c → skipCond input c.1 = .ok false := by
  intro fuel
  induction fuel with
  | zero =>
    intro pos line c h
    unfold skipSpace at h
    rcases hc : skipCond input pos with (_ | _) | _ <;> simp [hc] at h
    subst h; simpa using hc
  | succ n ih =>
    intro pos line c h
    unfold skipSpace at h
    rcases hc : skipCond input pos with (_ | _) | _ <;> simp [hc] at h
    · subst h; simpa using hc
    · rcases hb : crlfAt input pos with (_ | _) | _ <;> simp [hb] at h
      · exact ih _ _ _ h
      · exact ih _ _ _ h

/-- Fuel adequacy of the whitespace loop. -/
theorem skipSpace_fuel {input : List Nat} :
    ∀ (fuel pos : Nat) (line : Int), input.length - pos ≤ fuel →
      skipSpace input fuel pos line ≠ .fail .outOfFuel := by
  intro fuel
  induction fuel with
  | zero =>
    intro pos line h
    unfold skipSpace
    rw [skipCond_of_ge (by omega)]; simp
  | succ n ih =>
    intro pos line h
    unfold skipSpace
    by_cases hlt : pos < input.length
    · obtain ⟨c, hc⟩ := get_of_lt hlt
      rw [skipCond_of_get hc]
      cases IsSpace c
      · simp
      · simp only
        rcases hb : crlfAt input pos with (_ | _) | f
        · exact ih _ _ (by omega)
        · exact ih _ _ (by omega)
        · have := crlfAt_ne_outOfFuel input pos
          rw [hb] at this; simpa using this
    · rw [skipCond_of_ge (by omega)]; simp

/-- The whitespace loop skips a run of white space that is followed by a
significant byte. -/
theorem skipSpace_run {input : List Nat} (q : Nat) (hq : q < input.length) :
    ∀ (fuel pos : Nat) (line : Int), pos ≤ q → q - pos ≤ fuel →
      (∀ i, pos ≤ i → i < q → ∃ c, input[i]? = some c ∧ IsSpace c = true) →
      skipCond input q = .ok false →
      ∃ l, skipSpace input fuel pos line = .ok (q, l) := by
  intro fuel
  induction fuel with
  | zero =>
    intro pos line h1 h2 _ hstop
    have : pos = q := by omega
    subst this
    exact ⟨line, by unfold skipSpace; simp [hstop]⟩
  | succ n ih =>
    intro pos line h1 h2 hall hstop
    unfold skipSpace
    rcases Nat.eq_or_lt_of_le h1 with h | h
    · subst h; exact ⟨line, by simp [hstop]⟩
    · obtain ⟨c, hc, hs⟩ := hall pos (le_refl _) h
      obtain ⟨d, hd⟩ := get_of_lt (show pos + 1 < input.length by omega)
      rw [skipCond_of_get hc, hs]
      have hcr : crlfAt input pos = .ok (c == 13 && d == 10) := by
        unfold crlfAt
        rw [test_of_get hc, test_of_get hd]
        cases c == 13 <;> simp [andAlso]
      simp only [hcr]
      cases (c == 13 && d == 10)
      · exact ih (pos + 1) line (by omega) (by omega) (fun i hi hi2 => hall i (by omega) hi2) hstop
      · exact ih (pos + 1) _ (by omega) (by omega) (fun i hi hi2 => hall i (by omega) hi2) hstop


/-! ## Fuel adequacy: no loop of `scanToken` runs out of fuel -/

theorem fuelled_ok {α : Type} (a : α) : Fuelled (Outcome.ok a) := by
  simp [Fuelled]

theorem fuelled_andThen {α β : Type} {e : Outcome α} {k : α → Outcome β}
    (he : Fuelled e) (hk : ∀ a, Fuelled (k a)) : Fuelled (andThen e k) := by
  cases e with
  | ok a => exact hk a
  | fail f => simpa [andThen, Fuelled] using he

theorem fuelled_branch {α : Type} {c : Outcome Bool} {t e : Outcome α}
    (hc : Fuelled c) (ht : Fuelled t) (he : Fuelled e) : Fuelled (branch c t e) := by
  rcases c with (_ | _) | f
  · exact he
  · exact ht
  · simpa [branch, Fuelled] using hc

theorem fuelled_andAlso {a b : Outcome Bool} (ha : Fuelled a) (hb : Fuelled b) :
    Fuelled (andAlso a b) := by
  rcases a with (_ | _) | f
  · simp [andAlso, Fuelled]
  · exact hb
  · simpa [andAlso, Fuelled] using ha

theorem fuelled_orElse {a b : Outcome Bool} (ha : Fuelled a) (hb : Fuelled b) :
    Fuelled (orElse a b) := by
  rcases a with (_ | _) | f
  · exact hb
  · simp [orElse, Fuelled]
  · simpa [orElse, Fuelled] using ha

theorem fuelled_notB {a : Outcome Bool} (ha : Fuelled a) : Fuelled (notB a) := by
  rcases a with _ | f
  · simp [notB, Fuelled]
  · simpa [notB, Fuelled] using ha

theorem fuelled_test (input : List Nat) (i : Nat) (p : Nat → Bool) :
    Fuelled (test input i p) := test_ne_outOfFuel input i p

theorem fuelled_testPrev (input : List Nat) (i : Nat) (p : Nat → Bool) :
    Fuelled (testPrev input i p) := by
  unfold testPrev
  split
  · simp [Fuelled]
  · exact fuelled_test _ _ _

theorem fuelled_inBounds (input : List Nat) (i : Nat) : Fuelled (inBounds input i) :=
  fuelled_ok _

theorem fuelled_slice (input : List Nat) (lo hi : Nat) : Fuelled (slice input lo hi) := by
  unfold slice
  split <;> simp [Fuelled]

theorem fuelled_stringAt (input : List Nat) (i : Nat) : Fuelled (stringAt input i) := by
  unfold stringAt
  cases input[i]? <;> simp [Fuelled]

theorem lt_of_guarded {input : List Nat} {p : Nat} {b : Outcome Bool}
    (h : andAlso (inBounds input p) b = .ok true) : p < input.length := by
  by_contra hn
  rw [inBounds_of_ge (by omega)] at h
  simp [andAlso] at h

theorem lt_of_underscoreCond {input : List Nat} {p : Nat}
    (h : underscoreCond input p = .ok true) : p < input.length := by
  by_contra hn
  unfold underscoreCond at h
  rw [inBounds_of_ge (by omega)] at h
  simp only [andAlso, orElse] at h
  obtain ⟨c, hc, _⟩ := test_eq_ok.mp h
  exact hn (lt_of_get hc)

theorem fuelled_guardedLoop {input : List Nat} {body brk : Nat → Outcome Bool}
    (hbody : ∀ p, Fuelled (body p)) (hbrk : ∀ p, Fuelled (brk p)) (pos : Nat) :
    Fuelled (scanLoop (fun p => andAlso (inBounds input p) (body p)) brk
      (input.length - pos) pos) :=
  scanLoop_fuel input.length (fun _ h => lt_of_guarded h)
    (fun p => fuelled_andAlso (fuelled_inBounds _ _) (hbody p)) hbrk _ _ (le_refl _)

theorem fuelled_scanIdentifier (input : List Nat) (start : Nat) (line : Int) :
    Fuelled (scanIdentifier input start line) := by
  unfold scanIdentifier
  refine fuelled_andThen ?_ fun pos => fuelled_andThen (fuelled_slice _ _ _) fun s => ?_
  · exact fuelled_guardedLoop
      (fun p => fuelled_orElse (fuelled_test _ _ _) (fuelled_test _ _ _)) (fun _ => fuelled_ok _) _
  · split <;> exact fuelled_ok _

theorem fuelled_scanUnderscore (input : List Nat) (start : Nat) (line : Int) :
    Fuelled (scanUnderscore input start line) := by
  unfold scanUnderscore
  refine fuelled_andThen ?_ fun pos => fuelled_andThen (fuelled_slice _ _ _) fun s =>
    fuelled_ok _
  exact scanLoop_fuel input.length (fun _ h => lt_of_underscoreCond h)
    (fun p => fuelled_orElse (fuelled_andAlso (fuelled_inBounds _ _)
      (fuelled_orElse (fuelled_test _ _ _) (fuelled_test _ _ _))) (fuelled_test _ _ _))
    (fun _ => fuelled_ok _) _ _ (le_refl _)

theorem fuelled_scanNumber (input : List Nat) (start : Nat) (line : Int) :
    Fuelled (scanNumber input start line) := by
  unfold scanNumber
  refine fuelled_andThen ?_ fun pos => fuelled_andThen (fuelled_slice _ _ _) fun s =>
    fuelled_andThen (fuelled_slice _ _ _) fun t => ?_
  · exact fuelled_guardedLoop
      (fun p => fuelled_orElse (fuelled_test _ _ _) (fuelled_test _ _ _)) (fun _ => fuelled_ok _) _
  · split <;> exact fuelled_ok _

theorem fuelled_scanFraction (input : List Nat) (start : Nat) (line : Int) :
    Fuelled (scanFraction input start line) := by
  unfold scanFraction
  refine fuelled_andThen ?_ fun pos => fuelled_andThen (fuelled_slice _ _ _) fun s =>
    fuelled_ok _
  exact fuelled_guardedLoop (fun p => fuelled_test _ _ _) (fun _ => fuelled_ok _) _

theorem fuelled_scanBracket (input : List Nat) (start : Nat) (line : Int) (close : Nat) :
    Fuelled (scanBracket input start line close) := by
  unfold scanBracket
  refine fuelled_andThen ?_ fun pos => ?_
  · exact fuelled_guardedLoop (fun p => fuelled_test _ _ _) (fun p => fuelled_test _ _ _) _
  · split
    · exact fuelled_andThen (fuelled_slice _ _ _) fun s =>
        fuelled_andThen (fuelled_stringAt _ _) fun t => fuelled_ok _
    · exact fuelled_andThen (fuelled_stringAt _ _) fun t => fuelled_ok _

theorem fuelled_scanDelimiter (input : List Nat) (pos : Nat) (line : Int) :
    Fuelled (scanDelimiter input pos line) := by
  unfold scanDelimiter
  exact fuelled_branch (fuelled_test _ _ _) (fuelled_scanBracket _ _ _ _) <|
    fuelled_branch (fuelled_test _ _ _) (fuelled_scanBracket _ _ _ _) <|
    fuelled_branch (fuelled_test _ _ _) (fuelled_scanBracket _ _ _ _) <|
    fuelled_andThen (fuelled_stringAt _ _) fun t => fuelled_ok _

theorem fuelled_scanString (input : List Nat) (start : Nat) (line : Int) :
    Fuelled (scanString input start line) := by
  unfold scanString
  refine fuelled_andThen ?_ fun pos => ?_
  · exact fuelled_guardedLoop (fun p => fuelled_test _ _ _) (fun p => fuelled_test _ _ _) _
  · split
    · exact fuelled_andThen (fuelled_slice _ _ _) fun s => fuelled_ok _
    · exact fuelled_andThen (fuelled_slice _ _ _) fun s => fuelled_ok _

theorem fuelled_crlfAt (input : List Nat) (pos : Nat) : Fuelled (crlfAt input pos) :=
  fuelled_andAlso (fuelled_test _ _ _) (fuelled_test _ _ _)

theorem fuelled_starSlashAt (input : List Nat) (pos : Nat) : Fuelled (starSlashAt input pos) :=
  fuelled_andAlso (fuelled_test _ _ _) (fuelled_test _ _ _)

theorem fuelled_scanLineComment (input : List Nat) (pos0 : Nat) (line : Int) :
    Fuelled (scanLineComment input pos0 line) := by
  unfold scanLineComment
  refine fuelled_andThen ?_ fun pos => fuelled_andThen (fuelled_slice _ _ _) fun s =>
    fuelled_ok _
  exact fuelled_guardedLoop (fun p => fuelled_notB (fuelled_crlfAt _ _)) (fun _ => fuelled_ok _) _

theorem fuelled_scanBlockComment (input : List Nat) (pos0 : Nat) (line : Int) :
    Fuelled (scanBlockComment input pos0 line) := by
  unfold scanBlockComment
  refine fuelled_andThen ?_ fun pos => ?_
  · exact fuelled_guardedLoop (fun p => fuelled_notB (fuelled_starSlashAt _ _))
      (fun p => fuelled_starSlashAt _ _) _
  · split
    · exact fuelled_andThen (fuelled_slice _ _ _) fun s => fuelled_ok _
    · exact fuelled_andThen (fuelled_slice _ _ _) fun s => fuelled_ok _

theorem fuelled_scanOperatorToken (input : List Nat) (pos : Nat) (line : Int) :
    Fuelled (scanOperatorToken input pos line) := by
  unfold scanOperatorToken
  refine fuelled_andThen (fuelled_stringAt _ _) fun s => ?_
  split
  · exact fuelled_andThen (fuelled_slice _ _ _) fun s => fuelled_ok _
  · exact fuelled_andThen (fuelled_stringAt _ _) fun s => fuelled_ok _

theorem fuelled_scanOperator (input : List Nat) (pos : Nat) (line : Int) :
    Fuelled (scanOperator input pos line) := by
  unfold scanOperator
  exact fuelled_branch
    (fuelled_andAlso (fuelled_test _ _ _) (fuelled_orElse (fuelled_test _ _ _) (fuelled_test _ _ _)))
    (fuelled_branch (fuelled_test _ _ _) (fuelled_scanLineComment _ _ _) <|
      fuelled_branch (fuelled_test _ _ _) (fuelled_scanBlockComment _ _ _)
        (fuelled_scanOperatorToken _ _ _))
    (fuelled_scanOperatorToken _ _ _)

theorem fuelled_scanForeign (input : List Nat) (pos : Nat) (line : Int) :
    Fuelled (scanForeign input pos line) := by
  unfold scanForeign
  refine fuelled_andThen (fuelled_stringAt _ _) fun s => ?_
  split <;> simp [Fuelled]

theorem fuelled_delimiterCond (input : List Nat) (pos : Nat) :
    Fuelled (delimiterCond input pos) := by
  unfold delimiterCond
  repeat first
    | exact fuelled_test _ _ _
    | exact fuelled_testPrev _ _ _
    | apply fuelled_orElse
    | apply fuelled_andAlso

theorem fuelled_classify (input : List Nat) (pos : Nat) (line : Int) :
    Fuelled (classify input pos line) := by
  unfold classify
  refine fuelled_branch (fuelled_test _ _ _) (fuelled_scanIdentifier _ _ _) <|
    fuelled_branch (fuelled_andAlso (fuelled_test _ _ _) (fuelled_test _ _ _))
      (fuelled_scanUnderscore _ _ _) <|
    fuelled_branch (fuelled_test _ _ _) (fuelled_scanNumber _ _ _) <|
    fuelled_branch (fuelled_andAlso (fuelled_test _ _ _) (fuelled_test _ _ _))
      (fuelled_scanFraction _ _ _) <|
    fuelled_branch (fuelled_delimiterCond _ _) (fuelled_scanDelimiter _ _ _) <|
    fuelled_branch (fuelled_test _ _ _) (fuelled_scanString _ _ _) <|
    fuelled_branch (fuelled_andThen (fuelled_stringAt _ _) fun s => fuelled_ok _)
      (fuelled_scanOperator _ _ _) (fuelled_scanForeign _ _ _)

/-- The fuel given to the loops of `scanToken` is never used up: the model is
the source function, whose only faults are run-time panics. -/
theorem scanToken_fuel_adequate (input : List Nat) (pos : Nat) (line : Int) :
    scanToken input pos line ≠ .fail .outOfFuel := by
  unfold scanToken
  refine fuelled_andThen (skipSpace_fuel _ _ _ (le_refl _)) fun cursor => ?_
  split
  · exact fuelled_ok _
  · exact fuelled_classify _ _ _


/-! ## The keyword table -/

theorem lookup_mem {k : List Nat} {v : TokenType} :
    ∀ (table : List (List Nat × TokenType)), table.lookup k = some v → (k, v) ∈ table := by
  intro table
  induction table with
  | nil => intro h; simp [List.lookup] at h
  | cons e rest ih =>
    intro h
    obtain ⟨a, b⟩ := e
    unfold List.lookup at h
    by_cases hk : (k == a) = true
    · simp only [hk] at h
      have : k = a := by simpa using hk
      subst this
      cases h
      exact List.mem_cons_self _ _
    · simp only [Bool.not_eq_true] at hk
      simp only [hk] at h
      exact List.mem_cons_of_mem _ (ih h)

theorem lookup_none {k : List Nat} :
    ∀ (table : List (List Nat × TokenType)), table.lookup k = none ↔ k ∉ table.map Prod.fst := by
  intro table
  induction table with
  | nil => simp [List.lookup]
  | cons e rest ih =>
    obtain ⟨a, b⟩ := e
    unfold List.lookup
    by_cases hk : (k == a) = true
    · simp only [hk]
      have : k = a := by simpa using hk
      simp [this]
    · simp only [Bool.not_eq_true] at hk
      simp only [hk]
      have : k ≠ a := by intro h; subst h; simp at hk
      simp [ih, this]

theorem keywords_values : ∀ e ∈ keywords, e.2 = TokenKeyword := by
  decide

/-- A lookup in `keywords` yields `TokenKeyword` for the 25 spellings and
nothing for any other string. -/
theorem keywords_lookup (w : List Nat) :
    keywords.lookup w = if w ∈ keywords.map Prod.fst then some TokenKeyword else none := by
  split
  · rename_i h
    cases hl : keywords.lookup w with
    | none => exact absurd h ((lookup_none keywords).mp hl)
    | some v =>
      have := keywords_values _ (lookup_mem keywords hl)
      simp at this; rw [this]
  · rename_i h
    exact (lookup_none keywords).mpr h


/-! ## What each case of the `switch` returns -/

theorem guarded_true {input : List Nat} {pos : Nat} {b : Outcome Bool}
    (hlt : pos < input.length) (hb : b = .ok true) :
    andAlso (inBounds input pos) b = .ok true := by
  rw [inBounds_of_lt hlt, hb]; rfl

theorem scanIdentifier_advances {input : List Nat} {start : Nat} {line : Int} {r : ScanResult}
    (hc : test input start IsLetter = .ok true)
    (h : scanIdentifier input start line = .ok r) : Advances start line r := by
  obtain ⟨c, hget, hl⟩ := test_eq_ok.mp hc
  have hcond : identCond input start = .ok true := by
    unfold identCond
    exact guarded_true (lt_of_get hget) (by rw [hc]; rfl)
  unfold scanIdentifier at h
  obtain ⟨pos, hloop, h⟩ := andThen_eq_ok.mp h
  obtain ⟨s, _, h⟩ := andThen_eq_ok.mp h
  have hlt := scanLoop_lt hcond rfl hloop
  rw [keywords_lookup] at h
  by_cases hk : s ∈ keywords.map Prod.fst
  · rw [if_pos hk] at h
    cases h; simp [Advances, hlt]
  · rw [if_neg hk] at h
    cases h; simp [Advances, hlt]

theorem scanUnderscore_advances {input : List Nat} {start : Nat} {line : Int} {r : ScanResult}
    (hc : test input start (· == 95) = .ok true)
    (h : scanUnderscore input start line = .ok r) : Advances start line r := by
  obtain ⟨c, hget, hl⟩ := test_eq_ok.mp hc
  have hcond : underscoreCond input start = .ok true := by
    unfold underscoreCond
    rw [inBounds_of_lt (lt_of_get hget), test_of_get hget, test_of_get hget, hc]
    cases IsLetter c <;> cases IsDigit c <;> rfl
  unfold scanUnderscore at h
  obtain ⟨pos, hloop, h⟩ := andThen_eq_ok.mp h
  obtain ⟨s, _, h⟩ := andThen_eq_ok.mp h
  have hlt := scanLoop_lt hcond rfl hloop
  cases h; simp [Advances, hlt]

theorem scanNumber_advances {input : List Nat} {start : Nat} {line : Int} {r : ScanResult}
    (hc : test input start IsDigit = .ok true)
    (h : scanNumber input start line = .ok r) : Advances start line r := by
  obtain ⟨c, hget, hl⟩ := test_eq_ok.mp hc
  have hcond : numberCond input start = .ok true := by
    unfold numberCond
    exact guarded_true (lt_of_get hget) (by rw [hc]; rfl)
  unfold scanNumber at h
  obtain ⟨pos, hloop, h⟩ := andThen_eq_ok.mp h
  obtain ⟨s, _, h⟩ := andThen_eq_ok.mp h
  obtain ⟨t, _, h⟩ := andThen_eq_ok.mp h
  have hlt := scanLoop_lt hcond rfl hloop
  split at h <;> cases h <;> simp [Advances, hlt]

theorem scanFraction_advances {input : List Nat} {start : Nat} {line : Int} {r : ScanResult}
    (h : scanFraction input start line = .ok r) : Advances start line r := by
  unfold scanFraction at h
  obtain ⟨pos, hloop, h⟩ := andThen_eq_ok.mp h
  obtain ⟨s, _, h⟩ := andThen_eq_ok.mp h
  have hle := scanLoop_le _ _ _ hloop
  cases h; simp [Advances]; omega

theorem scanBracket_advances {input : List Nat} {start : Nat} {line : Int} {close : Nat}
    {r : ScanResult} (h : scanBracket input start line close = .ok r) :
    Advances start line r := by
  unfold scanBracket at h
  obtain ⟨pos, hloop, h⟩ := andThen_eq_ok.mp h
  have hle := scanLoop_le _ _ _ hloop
  split at h
  · obtain ⟨s, _, h⟩ := andThen_eq_ok.mp h
    obtain ⟨t, _, h⟩ := andThen_eq_ok.mp h
    cases h; simp [Advances]; omega
  · obtain ⟨s, _, h⟩ := andThen_eq_ok.mp h
    cases h; simp [Advances]

theorem scanDelimiter_advances {input : List Nat} {pos : Nat} {line : Int} {r : ScanResult}
    (h : scanDelimiter input pos line = .ok r) : Advances pos line r := by
  unfold scanDelimiter at h
  rcases branch_eq_ok.mp h with ⟨_, h⟩ | ⟨_, h⟩
  · exact scanBracket_advances h
  rcases branch_eq_ok.mp h with ⟨_, h⟩ | ⟨_, h⟩
  · exact scanBracket_advances h
  rcases branch_eq_ok.mp h with ⟨_, h⟩ | ⟨_, h⟩
  · exact scanBracket_advances h
  obtain ⟨s, _, h⟩ := andThen_eq_ok.mp h
  cases h; simp [Advances]

theorem scanString_advances {input : List Nat} {start : Nat} {line : Int} {r : ScanResult}
    (h : scanString input start line = .ok r) : Advances start line r := by
  unfold scanString at h
  obtain ⟨pos, hloop, h⟩ := andThen_eq_ok.mp h
  have hle := scanLoop_le _ _ _ hloop
  split at h
  · obtain ⟨s, _, h⟩ := andThen_eq_ok.mp h
    cases h; simp [Advances]; omega
  · obtain ⟨s, _, h⟩ := andThen_eq_ok.mp h
    cases h; simp [Advances]; omega

theorem scanLineComment_advances {input : List Nat} {pos0 : Nat} {line : Int} {r : ScanResult}
    (h : scanLineComment input pos0 line = .ok r) : Advances pos0 line r := by
  unfold scanLineComment at h
  obtain ⟨pos, hloop, h⟩ := andThen_eq_ok.mp h
  obtain ⟨s, _, h⟩ := andThen_eq_ok.mp h
  have hle := scanLoop_le _ _ _ hloop
  cases h; simp [Advances]; omega

theorem scanBlockComment_advances {input : List Nat} {pos0 : Nat} {line : Int} {r : ScanResult}
    (h : scanBlockComment input pos0 line = .ok r) : Advances pos0 line r := by
  unfold scanBlockComment at h
  obtain ⟨pos, hloop, h⟩ := andThen_eq_ok.mp h
  have hle := scanLoop_le _ _ _ hloop
  split at h
  · obtain ⟨s, _, h⟩ := andThen_eq_ok.mp h
    cases h; simp [Advances]; omega
  · obtain ⟨s, _, h⟩ := andThen_eq_ok.mp h
    cases h; simp [Advances]; omega

theorem scanOperatorToken_advances {input : List Nat} {pos : Nat} {line : Int} {r : ScanResult}
    (h : scanOperatorToken input pos line = .ok r) : Advances pos line r := by
  unfold scanOperatorToken at h
  obtain ⟨s, _, h⟩ := andThen_eq_ok.mp h
  split at h
  · obtain ⟨s, _, h⟩ := andThen_eq_ok.mp h
    cases h; simp [Advances]
  · obtain ⟨s, _, h⟩ := andThen_eq_ok.mp h
    cases h; simp [Advances]

theorem scanOperator_advances {input : List Nat} {pos : Nat} {line : Int} {r : ScanResult}
    (h : scanOperator input pos line = .ok r) : Advances pos line r := by
  unfold scanOperator at h
  rcases branch_eq_ok.mp h with ⟨_, h⟩ | ⟨_, h⟩
  · rcases branch_eq_ok.mp h with ⟨_, h⟩ | ⟨_, h⟩
    · exact scanLineComment_advances h
    rcases branch_eq_ok.mp h with ⟨_, h⟩ | ⟨_, h⟩
    · exact scanBlockComment_advances h
    · exact scanOperatorToken_advances h
  · exact scanOperatorToken_advances h

theorem scanForeign_advances {input : List Nat} {pos : Nat} {line : Int} {r : ScanResult}
    (h : scanForeign input pos line = .ok r) : Advances pos line r := by
  unfold scanForeign at h
  obtain ⟨s, _, h⟩ := andThen_eq_ok.mp h
  split at h
  · cases h
  · cases h; simp [Advances]

theorem andAlso_eq_true {a b : Outcome Bool} (h : andAlso a b = .ok true) :
    a = .ok true ∧ b = .ok true := by
  rcases a with (_ | _) | _ <;> simp_all [andAlso]

theorem classify_advances {input : List Nat} {pos : Nat} {line : Int} {r : ScanResult}
    (h : classify input pos line = .ok r) : Advances pos line r := by
  unfold classify at h
  rcases branch_eq_ok.mp h with ⟨hc, h⟩ | ⟨_, h⟩
  · exact scanIdentifier_advances hc h
  rcases branch_eq_ok.mp h with ⟨hc, h⟩ | ⟨_, h⟩
  · exact scanUnderscore_advances (andAlso_eq_true hc).1 h
  rcases branch_eq_ok.mp h with ⟨hc, h⟩ | ⟨_, h⟩
  · exact scanNumber_advances hc h
  rcases branch_eq_ok.mp h with ⟨_, h⟩ | ⟨_, h⟩
  · exact scanFraction_advances h
  rcases branch_eq_ok.mp h with ⟨_, h⟩ | ⟨_, h⟩
  · exact scanDelimiter_advances h
  rcases branch_eq_ok.mp h with ⟨_, h⟩ | ⟨_, h⟩
  · exact scanString_advances h
  rcases branch_eq_ok.mp h with ⟨_, h⟩ | ⟨_, h⟩
  · exact scanOperator_advances h
  · exact scanForeign_advances h

/-- The shape of a returned result of `scanToken`: either the whitespace loop
reached the end of the input and `TokenEOF` is returned, or the `switch` was
entered at the first significant byte. -/
theorem scanToken_cases {input : List Nat} {pos : Nat} {line : Int} {r : ScanResult}
    (h : scanToken input pos line = .ok r) :
    ∃ p l, skipSpace input (input.length - pos) pos line = .ok (p, l) ∧ pos ≤ p ∧
      ((input.length ≤ p ∧ r = ⟨⟨TokenEOF, 0, l, p, []⟩, p, l, none⟩) ∨
       (p < input.length ∧ classify input p l = .ok r)) := by
  unfold scanToken at h
  obtain ⟨⟨p, l⟩, hskip, h⟩ := andThen_eq_ok.mp h
  refine ⟨p, l, hskip, skipSpace_le _ _ _ _ hskip, ?_⟩
  split at h
  · rename_i hge
    cases h
    exact Or.inl ⟨hge, rfl⟩
  · rename_i hlt
    exact Or.inr ⟨by simpa using hlt, h⟩


/-! ## Results about every returning call -/

theorem scanToken_lt {input : List Nat} {pos : Nat} {line : Int} {r : ScanResult}
    (h : scanToken input pos line = .ok r) (hne : r.token.Type_ ≠ TokenEOF) :
    pos < r.newPos := by
  obtain ⟨p, l, _, hle, hcase⟩ := scanToken_cases h
  rcases hcase with ⟨_, rfl⟩ | ⟨_, hcl⟩
  · exact absurd rfl hne
  · have := (classify_advances hcl).1
    omega

/-- Claim C1, at inputs on which it fails: `scanToken` reads `input[pos+1]`
(and `input[pos-1]`, and slices up to `pos+1`) without a bounds check, so on an
input that ends with an operator character, an underscore, a dot, a carriage
return or an opened comment the call does not return a result but panics with
an index or slice out of range. -/
theorem scanToken_panics_at_unguarded_reads :
    scanToken (bytes "+") 0 1 = .fail .indexOutOfRange ∧
    scanToken (bytes "x = y /") 6 1 = .fail .indexOutOfRange ∧
    scanToken (bytes "_") 0 1 = .fail .indexOutOfRange ∧
    scanToken (bytes ".") 0 1 = .fail .indexOutOfRange ∧
    scanToken (bytes ".x") 0 1 = .fail .indexOutOfRange ∧
    scanToken (bytes ".5") 0 1 = .fail .indexOutOfRange ∧
    scanToken (bytes "x\r") 1 1 = .fail .indexOutOfRange ∧
    scanToken (bytes "//") 0 1 = .fail .sliceOutOfRange ∧
    scanToken (bytes "/*") 0 1 = .fail .sliceOutOfRange ∧
    scanToken (bytes "// x\r") 0 1 = .fail .indexOutOfRange ∧
    scanToken (bytes "/* x *") 0 1 = .fail .indexOutOfRange := by
  decide

/-- Claim C2: whenever `scanToken` returns a token whose kind is not
`TokenEOF`, the returned cursor `newPos` is strictly greater than `pos` (for
every `pos`, in particular for `0 <= pos <= len(input)`). -/
theorem scanToken_advances (input : List Nat) (pos : Nat) (line : Int) (r : ScanResult)
    (h : scanToken input pos line = .ok r) (hne : r.token.Type_ ≠ TokenEOF) :
    pos < r.newPos :=
  scanToken_lt h hne

/-- An instance of `scanToken_advances`: the operator of `a == b`, scanned
from position 1. -/
theorem scanToken_advances_witness :
    scanToken (bytes "a == b") 1 1 = .ok ⟨⟨TokenOperator, 2, 1, 2, bytes "=="⟩, 4, 1, none⟩ ∧
      (1 : Nat) < 4 :=
  ⟨by decide,
    scanToken_advances (bytes "a == b") 1 1 ⟨⟨TokenOperator, 2, 1, 2, bytes "=="⟩, 4, 1, none⟩
      (by decide) (by decide)⟩

/-! ## The driving loop -/

theorem mainLoop_bounded (input : List Nat) :
    ∀ (fuel pos : Nat) (line : Int), input.length - pos ≤ fuel →
      (mainLoop input fuel pos line).fault ≠ some .outOfFuel ∧
      (mainLoop input fuel pos line).calls ≤ input.length - pos ∧
      mainLoop input (fuel + 1) pos line = mainLoop input fuel pos line := by
  intro fuel
  induction fuel with
  | zero =>
    intro pos line h
    have hge : ¬ pos < input.length := by omega
    simp [mainLoop, hge]
  | succ n ih =>
    intro pos line h
    by_cases hlt : pos < input.length
    · rcases hs : scanToken input pos line with r | f
      · by_cases heof : r.token.Type_ = TokenEOF
        · unfold mainLoop
          simp only [hlt, hs, heof, if_true]
          exact ⟨by simp, by omega, trivial⟩
        · have hadv := scanToken_lt hs heof
          obtain ⟨h1, h2, h3⟩ := ih r.newPos r.newLine (by omega)
          have h3b : mainLoop input (n + 1 + 1) pos line = mainLoop input (n + 1) pos line := by
            rw [mainLoop, mainLoop]
            simp only [hlt, hs, heof, if_true, if_false, h3]
          refine ⟨?_, ?_, h3b⟩
          · unfold mainLoop
            simp only [hlt, hs, heof, if_true, if_false]
            exact h1
          · unfold mainLoop
            simp only [hlt, hs, heof, if_true, if_false]
            omega
      · have hf : f ≠ .outOfFuel := by
          intro hf; subst hf
          exact scanToken_fuel_adequate input pos line hs
        unfold mainLoop
        simp only [hlt, hs, if_true]
        exact ⟨by simpa using hf, by omega, trivial⟩
    · unfold mainLoop
      simp only [hlt, if_false]
      exact ⟨by simp, by omega, trivial⟩

theorem mainLoop_more_fuel (input : List Nat) (pos : Nat) (line : Int) (fuel : Nat)
    (h : input.length - pos ≤ fuel) :
    ∀ extra, mainLoop input (fuel + extra) pos line = mainLoop input fuel pos line := by
  intro extra
  induction extra with
  | zero => rfl
  | succ k ih =>
    rw [← Nat.add_assoc, (mainLoop_bounded input (fuel + k) pos line (by omega)).2.2, ih]

/-- Claim C3: the driving loop of `main` (from `pos = 0`, `line = 1`) ends
after at most `len(input)` calls of `scanToken`: with one unit of fuel per
input byte the loop is never cut short, it makes at most `len(input)` calls,
and any larger bound on the number of iterations gives the same run. The run
ends by leaving the loop or by a panic of `scanToken`. -/
theorem main_loop_terminates (input : List Nat) :
    (runMain input).fault ≠ some .outOfFuel ∧
      (runMain input).calls ≤ input.length ∧
      ∀ extra, mainLoop input (input.length + extra) 0 1 = runMain input := by
  obtain ⟨h1, h2, _⟩ := mainLoop_bounded input input.length 0 1 (by omega)
  exact ⟨h1, by simpa using h2, mainLoop_more_fuel input 0 1 input.length (by omega)⟩

/-- Claim C4: whenever `scanToken` returns, the returned error is non-nil if
and only if the kind of the returned token is `TokenError`; every other kind,
`TokenEOF` included, comes with a nil error. -/
theorem scanToken_error_iff (input : List Nat) (pos : Nat) (line : Int) (r : ScanResult)
    (h : scanToken input pos line = .ok r) :
    r.err ≠ none ↔ r.token.Type_ = TokenError := by
  obtain ⟨p, l, _, _, hcase⟩ := scanToken_cases h
  rcases hcase with ⟨_, rfl⟩ | ⟨_, hcl⟩
  · simp
  · exact (classify_advances hcl).2.1

/-- An instance of `scanToken_error_iff`: an unterminated string. -/
theorem scanToken_error_iff_witness :
    (some (LexError.unterminatedString 1 0) ≠ none ↔ TokenError = TokenError) :=
  scanToken_error_iff (bytes "\"abc") 0 1
    ⟨⟨TokenError, 4, 1, 0, bytes "\"abc"⟩, 5, 1, some (.unterminatedString 1 0)⟩ (by decide)


/-! ## Scanning from the first significant byte -/

theorem skipSpace_of_stop {input : List Nat} {pos : Nat} (line : Int) (fuel : Nat)
    (h : skipCond input pos = .ok false) :
    skipSpace input fuel pos line = .ok (pos, line) := by
  cases fuel <;> (unfold skipSpace; simp [h])

/-- When the bytes from `pos` up to `p` are white space and the byte at `p` is
not, `scanToken` enters the `switch` at `p`. -/
theorem scanToken_at {input : List Nat} {pos p c : Nat} (line : Int)
    (hle : pos ≤ p)
    (hws : ∀ i, pos ≤ i → i < p → ∃ d, input[i]? = some d ∧ IsSpace d = true)
    (hget : input[p]? = some c) (hc : IsSpace c = false) :
    ∃ l, scanToken input pos line = classify input p l := by
  have hlt := lt_of_get hget
  have hstop : skipCond input p = .ok false := by rw [skipCond_of_get hget, hc]
  obtain ⟨l, hl⟩ := skipSpace_run p hlt (input.length - pos) pos line hle (by omega) hws hstop
  refine ⟨l, ?_⟩
  unfold scanToken
  rw [hl]
  simp only [andThen]
  rw [if_neg (by omega)]

theorem scanToken_at_start {input : List Nat} {pos c : Nat} (line : Int)
    (hget : input[pos]? = some c) (hc : IsSpace c = false) :
    scanToken input pos line = classify input pos line := by
  have hlt := lt_of_get hget
  have hstop : skipCond input pos = .ok false := by rw [skipCond_of_get hget, hc]
  unfold scanToken
  rw [skipSpace_of_stop line _ hstop]
  simp only [andThen]
  rw [if_neg (by omega)]

theorem slice_all (input : List Nat) : slice input 0 input.length = .ok input := by
  simp [slice]

theorem asciiLetter_isLetter {c : Nat} (h : asciiLetter c = true) : IsLetter c = true := by
  simp only [asciiLetter, Bool.or_eq_true, Bool.and_eq_true, decide_eq_true_eq] at h
  simp only [IsLetter, Bool.or_eq_true, Bool.and_eq_true, decide_eq_true_eq]
  omega

theorem asciiLetter_not_space {c : Nat} (h : asciiLetter c = true) : IsSpace c = false := by
  simp only [asciiLetter, Bool.or_eq_true, Bool.and_eq_true, decide_eq_true_eq] at h
  simp only [IsSpace, Bool.or_eq_false_iff, beq_eq_false_iff_ne, ne_eq]
  omega

theorem asciiDigit_isDigit (c : Nat) : IsDigit c = asciiDigit c := rfl

theorem asciiDigit_not_space {c : Nat} (h : asciiDigit c = true) : IsSpace c = false := by
  simp only [asciiDigit, Bool.and_eq_true, decide_eq_true_eq] at h
  simp only [IsSpace, Bool.or_eq_false_iff, beq_eq_false_iff_ne, ne_eq]
  omega

theorem asciiDigit_not_letter {c : Nat} (h : asciiDigit c = true) : IsLetter c = false := by
  simp only [asciiDigit, Bool.and_eq_true, decide_eq_true_eq] at h
  simp only [IsLetter, Bool.or_eq_false_iff, Bool.and_eq_false_iff, beq_eq_false_iff_ne, ne_eq,
    decide_eq_false_iff_not]
  omega

/-- A loop guarded by `pos < len(input)` whose test holds for every byte from
`pos` on runs to the end of the input. -/
theorem scanLoop_to_end {input : List Nat} {body : Nat → Outcome Bool} {pos : Nat}
    (hpos : pos ≤ input.length)
    (hbody : ∀ i, pos ≤ i → i < input.length → body i = .ok true) :
    scanLoop (fun p => andAlso (inBounds input p) (body p)) noBreak (input.length - pos) pos
      = .ok input.length := by
  refine scanLoop_run input.length _ _ hpos (le_refl _) (fun i hi hi2 => ⟨?_, rfl⟩) ?_
  · exact guarded_true hi2 (hbody i hi hi2)
  · simp only [inBounds_of_ge (le_refl _)]; rfl

theorem get_of_forall_mem {input : List Nat} {P : Nat → Prop} (h : ∀ c ∈ input, P c)
    {i : Nat} (hi : i < input.length) : ∃ c, input[i]? = some c ∧ P c :=
  ⟨input[i], List.getElem?_eq_getElem hi, h _ (List.getElem_mem hi)⟩

/-- Claim C6: a non-empty word `w` of ASCII letters and digits that begins
with a letter, scanned alone from position 0 and line 1, gives one token with
`Value = w`, `Length = len(w)`, `Pos = 0`, `Line = 1`, `newPos = len(w)` and a
nil error; its kind is `TokenKeyword` when `w` is one of the spellings of the
keyword table and `TokenIdent` otherwise. The table has 25 distinct spellings,
among them `for` and `return`. -/
theorem scanToken_word (c : Nat) (rest : List Nat) (hc : asciiLetter c = true)
    (hrest : ∀ d ∈ rest, asciiLetter d = true ∨ asciiDigit d = true) :
    scanToken (c :: rest) 0 1 =
        .ok ⟨⟨if c :: rest ∈ keywordSpellings then TokenKeyword else TokenIdent,
              ((c :: rest).length : Int), 1, 0, c :: rest⟩, (c :: rest).length, 1, none⟩ ∧
      keywordSpellings.length = 25 ∧ keywordSpellings.Nodup ∧
      bytes "for" ∈ keywordSpellings ∧ bytes "return" ∈ keywordSpellings := by
  refine ⟨?_, by decide, by decide, by decide, by decide⟩
  have hget : (c :: rest)[0]? = some c := by simp
  rw [scanToken_at_start 1 hget (asciiLetter_not_space hc)]
  have hall : ∀ d ∈ c :: rest, IsLetter d = true ∨ IsDigit d = true := by
    intro d hd
    rcases List.mem_cons.mp hd with rfl | hd
    · exact Or.inl (asciiLetter_isLetter hc)
    · rcases hrest d hd with h | h
      · exact Or.inl (asciiLetter_isLetter h)
      · exact Or.inr h
  have hloop : scanLoop (identCond (c :: rest)) noBreak ((c :: rest).length - 0) 0
      = .ok (c :: rest).length := by
    refine scanLoop_to_end (Nat.zero_le _) (fun i _ hi => ?_)
    obtain ⟨d, hd, hp⟩ := get_of_forall_mem hall hi
    rw [test_of_get hd, test_of_get hd]
    rcases hp with h | h
    · rw [h]; rfl
    · rw [h]; cases IsLetter d <;> rfl
  unfold classify
  rw [test_of_get hget, asciiLetter_isLetter hc]
  simp only [branch]
  unfold scanIdentifier
  rw [hloop]
  simp only [andThen, slice_all, keywords_lookup]
  by_cases hk : c :: rest ∈ keywordSpellings
  · have hk2 : c :: rest ∈ keywords.map Prod.fst := hk
    rw [if_pos hk, if_pos hk2]
    simp
  · have hk2 : c :: rest ∉ keywords.map Prod.fst := hk
    rw [if_neg hk, if_neg hk2]
    simp

/-- An instance of `scanToken_word`: the keyword `return`. -/
theorem scanToken_word_witness :
    scanToken (bytes "return") 0 1 =
        .ok ⟨⟨TokenKeyword, 6, 1, 0, bytes "return"⟩, 6, 1, none⟩ ∧
      keywordSpellings.length = 25 ∧ keywordSpellings.Nodup ∧
      bytes "for" ∈ keywordSpellings ∧ bytes "return" ∈ keywordSpellings :=
  scanToken_word 114 (bytes "eturn") (by decide) (by decide)


/-! ## Numbers -/

theorem startsWith_single (s : List Nat) (c : Nat) :
    startsWith s [c] = true ↔ s.head? = some c := by
  cases s with
  | nil => simp [startsWith]
  | cons d t => simp [startsWith]

theorem stringsContains_single (c : Nat) :
    ∀ s : List Nat, stringsContains s [c] = true ↔ c ∈ s := by
  intro s
  induction s with
  | nil => simp [stringsContains, startsWith]
  | cons d t ih =>
    unfold stringsContains
    rw [Bool.or_eq_true, ih, startsWith_single]
    simp only [List.head?_cons, Option.some.injEq, List.mem_cons]
    constructor
    · rintro (h | h)
      · exact Or.inl h.symm
      · exact Or.inr h
    · rintro (h | h)
      · exact Or.inl h.symm
      · exact Or.inr h

theorem bytes_dot : bytes "." = [46] := by decide

/-- Claim C8: a non-empty string `s` of ASCII digits and dots that begins with
a digit, scanned alone from position 0 and line 1, gives one token with
`Value = s`, `Length = len(s)`, `Pos = 0`, `newPos = len(s)` and a nil error;
its kind is `TokenFloat` if `s` contains at least one dot, however many, and
`TokenInt` otherwise. So `123` gives an integer literal of length 3 and `12.5`
a float literal of length 4. -/
theorem scanToken_number (c : Nat) (rest : List Nat) (hc : asciiDigit c = true)
    (hrest : ∀ d ∈ rest, asciiDigit d = true ∨ d = 46) :
    scanToken (c :: rest) 0 1 =
        .ok ⟨⟨if 46 ∈ c :: rest then TokenFloat else TokenInt,
              ((c :: rest).length : Int), 1, 0, c :: rest⟩, (c :: rest).length, 1, none⟩ ∧
      scanToken (bytes "123") 0 1 = .ok ⟨⟨TokenInt, 3, 1, 0, bytes "123"⟩, 3, 1, none⟩ ∧
      scanToken (bytes "12.5") 0 1 = .ok ⟨⟨TokenFloat, 4, 1, 0, bytes "12.5"⟩, 4, 1, none⟩ := by
  refine ⟨?_, by decide, by decide⟩
  have hget : (c :: rest)[0]? = some c := by simp
  rw [scanToken_at_start 1 hget (asciiDigit_not_space hc)]
  have hall : ∀ d ∈ c :: rest, IsDigit d = true ∨ d = 46 := by
    intro d hd
    rcases List.mem_cons.mp hd with rfl | hd
    · exact Or.inl hc
    · exact hrest d hd
  have hloop : scanLoop (numberCond (c :: rest)) noBreak ((c :: rest).length - 0) 0
      = .ok (c :: rest).length := by
    refine scanLoop_to_end (Nat.zero_le _) (fun i _ hi => ?_)
    obtain ⟨d, hd, hp⟩ := get_of_forall_mem hall hi
    rw [test_of_get hd, test_of_get hd]
    rcases hp with h | h
    · rw [h]; rfl
    · subst h; rfl
  have h95 : (c == 95) = false := by
    simp only [asciiDigit, Bool.and_eq_true, decide_eq_true_eq] at hc
    simp only [beq_eq_false_iff_ne, ne_eq]
    omega
  have hdig : IsDigit c = true := hc
  unfold classify
  rw [test_of_get hget, test_of_get hget, test_of_get hget, asciiDigit_not_letter hc, h95, hdig]
  simp only [branch, andAlso]
  unfold scanNumber
  rw [hloop]
  simp only [andThen, slice_all, bytes_dot]
  by_cases hk : 46 ∈ c :: rest
  · rw [if_pos hk, if_pos ((stringsContains_single 46 _).mpr hk)]
    simp
  · have : ¬ stringsContains (c :: rest) [46] = true := fun h =>
      hk ((stringsContains_single 46 _).mp h)
    rw [if_neg hk, if_neg this]
    simp

/-- An instance of `scanToken_number`: a literal with two dots. -/
theorem scanToken_number_witness :
    scanToken (bytes "1.2.3") 0 1 =
        .ok ⟨⟨TokenFloat, 5, 1, 0, bytes "1.2.3"⟩, 5, 1, none⟩ ∧
      scanToken (bytes "123") 0 1 = .ok ⟨⟨TokenInt, 3, 1, 0, bytes "123"⟩, 3, 1, none⟩ ∧
      scanToken (bytes "12.5") 0 1 = .ok ⟨⟨TokenFloat, 4, 1, 0, bytes "12.5"⟩, 4, 1, none⟩ :=
  scanToken_number 49 (bytes ".2.3") (by decide) (by decide)


/-! ## Strings and brackets: the search for a closing byte -/

/-- The search for `close` from `start` finds no such byte and stops at the
end of the input. -/
theorem untilLoop_to_end {input : List Nat} {close start : Nat} (hstart : start ≤ input.length)
    (hnone : ∀ i, start ≤ i → input[i]? ≠ some close) :
    scanLoop (untilCond input close) (untilBreak input close) (input.length - start) start
      = .ok input.length := by
  refine scanLoop_run input.length _ _ hstart (le_refl _) (fun i hi hi2 => ?_) ?_
  · obtain ⟨d, hd⟩ := get_of_lt hi2
    have hne : d ≠ close := fun h => hnone i hi (by rw [hd, h])
    unfold untilCond untilBreak
    rw [test_of_get hd, test_of_get hd, inBounds_of_lt hi2]
    simp [andAlso, hne]
  · unfold untilCond
    rw [inBounds_of_ge (le_refl _)]; rfl

/-- The search for `close` from `start` stops at the first such byte, at `q`. -/
theorem untilLoop_found {input : List Nat} {close start q : Nat} (hle : start ≤ q)
    (hq : input[q]? = some close)
    (hnone : ∀ i, start ≤ i → i < q → input[i]? ≠ some close) :
    scanLoop (untilCond input close) (untilBreak input close) (input.length - start) start
      = .ok q := by
  have hqlt := lt_of_get hq
  refine scanLoop_run q _ _ hle (by omega) (fun i hi hi2 => ?_) ?_
  · have hilt : i < input.length := by omega
    obtain ⟨d, hd⟩ := get_of_lt hilt
    have hne : d ≠ close := fun h => hnone i hi hi2 (by rw [hd, h])
    unfold untilCond untilBreak
    rw [test_of_get hd, test_of_get hd, inBounds_of_lt hilt]
    simp [andAlso, hne]
  · unfold untilCond
    rw [test_of_get hq, inBounds_of_lt hqlt]
    simp [andAlso]

theorem classify_quote {input : List Nat} {p : Nat} (line : Int) (h : input[p]? = some 34) :
    classify input p line = scanString input p line := by
  simp [classify, delimiterCond, test_of_get h, branch, andAlso, orElse, IsLetter, IsDigit]

theorem classify_bracket {input : List Nat} {p o close : Nat} (line : Int)
    (h : input[p]? = some o) (ho : (o, close) ∈ [(40, 41), (91, 93), (123, 125)]) :
    classify input p line = scanBracket input p line close := by
  simp only [List.mem_cons, Prod.mk.injEq, List.mem_singleton, List.not_mem_nil, or_false] at ho
  rcases ho with ⟨rfl, rfl⟩ | ⟨rfl, rfl⟩ | ⟨rfl, rfl⟩ <;>
    simp [classify, delimiterCond, scanDelimiter, test_of_get h, branch, andAlso, orElse,
      IsLetter, IsDigit]

theorem slice_drop {input : List Nat} {p : Nat} (hp : p ≤ input.length) :
    slice input p input.length = .ok (input.drop p) := by
  unfold slice
  rw [if_pos ⟨hp, le_refl _⟩, List.take_of_length_le (by simp)]

/-- Claim C9: when the first significant byte, at offset `p`, opens the text
`"` + `s` + `"` and `s` contains no double quote, `scanToken` returns a
`TokenString` token with `Value = s` (both quotes excluded),
`Length = len(s)`, `Pos = p`, `newPos = p + len(s) + 2` and a nil error. So
`"hello"` gives the value `hello` with length 5 and `""` gives the empty value
with length 0. -/
theorem scanToken_string (input : List Nat) (pos p : Nat) (line : Int) (s rest : List Nat)
    (hle : pos ≤ p)
    (hws : ∀ i, pos ≤ i → i < p → ∃ d, input[i]? = some d ∧ IsSpace d = true)
    (hopen : input.drop p = 34 :: (s ++ 34 :: rest)) (hs : 34 ∉ s) :
    (∃ l, scanToken input pos line =
        .ok ⟨⟨TokenString, (s.length : Int), l, p, s⟩, p + s.length + 2, l, none⟩) ∧
      scanToken (bytes "\"hello\"") 0 1 =
        .ok ⟨⟨TokenString, 5, 1, 0, bytes "hello"⟩, 7, 1, none⟩ ∧
      scanToken (bytes "\"\"") 0 1 = .ok ⟨⟨TokenString, 0, 1, 0, []⟩, 2, 1, none⟩ := by
  refine ⟨?_, by decide, by decide⟩
  have hat : ∀ j, input[p + j]? = (34 :: (s ++ 34 :: rest))[j]? := by
    intro j; rw [← List.getElem?_drop, hopen]
  have hget : input[p]? = some 34 := by simpa using hat 0
  have hclose : input[p + 1 + s.length]? = some 34 := by
    have := hat (1 + s.length)
    rw [← Nat.add_assoc] at this
    rw [this, Nat.add_comm 1, List.getElem?_cons_succ,
      List.getElem?_append_right (le_refl _)]
    simp
  have hinner : ∀ i, p + 1 ≤ i → i < p + 1 + s.length → input[i]? ≠ some 34 := by
    intro i hi hi2 h
    obtain ⟨j, rfl⟩ : ∃ j, i = p + (j + 1) := ⟨i - p - 1, by omega⟩
    rw [hat, List.getElem?_cons_succ, List.getElem?_append_left (by omega)] at h
    exact hs (List.getElem?_mem h)
  have hlen : p + 1 + s.length < input.length := lt_of_get hclose
  obtain ⟨l, hl⟩ := scanToken_at line hle hws hget (by decide)
  refine ⟨l, ?_⟩
  rw [hl, classify_quote l hget]
  unfold scanString
  rw [untilLoop_found (Nat.le_add_right _ _) hclose hinner]
  simp only [andThen]
  rw [if_neg (by omega)]
  have hslice : slice input (p + 1) (p + 1 + s.length) = .ok s := by
    unfold slice
    rw [if_pos ⟨by omega, by omega⟩]
    have : input.drop (p + 1) = s ++ 34 :: rest := by
      rw [← List.drop_drop, hopen]; rfl
    rw [this, Nat.add_sub_cancel_left, List.take_left]
  rw [hslice]
  simp only [Outcome.ok.injEq, ScanResult.mk.injEq, Token.mk.injEq, and_true, true_and]
  constructor
  · push_cast; omega
  · omega

/-- An instance of `scanToken_string`: a string literal after a space. -/
theorem scanToken_string_witness :
    (∃ l, scanToken (bytes "x = \"a b\";") 3 7 =
        .ok ⟨⟨TokenString, 3, l, 4, bytes "a b"⟩, 4 + 3 + 2, l, none⟩) ∧
      scanToken (bytes "\"hello\"") 0 1 =
        .ok ⟨⟨TokenString, 5, 1, 0, bytes "hello"⟩, 7, 1, none⟩ ∧
      scanToken (bytes "\"\"") 0 1 = .ok ⟨⟨TokenString, 0, 1, 0, []⟩, 2, 1, none⟩ :=
  scanToken_string (bytes "x = \"a b\";") 3 4 7 (bytes "a b") (bytes ";") (by decide)
    (by
      intro i h1 h2
      have : i = 3 := by omega
      subst this
      exact ⟨32, by decide, by decide⟩)
    (by decide) (by decide)


/-! ## Unterminated brackets and strings -/

theorem stringAt_ascii {input : List Nat} {p c : Nat} (h : input[p]? = some c) (hc : c < 128) :
    stringAt input p = .ok [c] := by
  simp [stringAt, h, stringOfByte, hc]

theorem scanBracket_unclosed {input : List Nat} {p o close : Nat} (line : Int)
    (h : input[p]? = some o) (ho : o < 128)
    (hnone : ∀ i, p < i → input[i]? ≠ some close) :
    scanBracket input p line close =
      .ok ⟨⟨TokenError, (input.length : Int) - p, line, p, input.drop p⟩, input.length + 1, line,
        some (.unclosedDelimiter line p [o])⟩ := by
  have hlt := lt_of_get h
  unfold scanBracket
  rw [untilLoop_to_end (by omega) (fun i hi => hnone i (by omega))]
  simp only [andThen]
  rw [if_pos (le_refl _), slice_drop (by omega), stringAt_ascii h ho]

theorem scanString_unclosed {input : List Nat} {p : Nat} (line : Int)
    (h : input[p]? = some 34) (hnone : ∀ i, p < i → input[i]? ≠ some 34) :
    scanString input p line =
      .ok ⟨⟨TokenError, (input.length : Int) - p, line, p, input.drop p⟩, input.length + 1, line,
        some (.unterminatedString line p)⟩ := by
  have hlt := lt_of_get h
  unfold scanString
  rw [untilLoop_to_end (by omega) (fun i hi => hnone i (by omega))]
  simp only [andThen]
  rw [if_pos (le_refl _), slice_drop (by omega)]

/-- Claim C10: when the first significant byte, at offset `p`, is `(`, `[`,
`{` or `"` and the matching closing byte (`)`, `]`, `}` or `"`) does not occur
anywhere after `p`, `scanToken` returns a `TokenError` token with `Pos = p`
that covers the whole unterminated span (`Value = input[p:]`,
`Length = len(input) - p`) together with a non-nil error. On the input `(a, b`
this token, with its error, is all that the driving loop prints. -/
theorem scanToken_unterminated (input : List Nat) (pos p : Nat) (line : Int) (o close : Nat)
    (hle : pos ≤ p)
    (hws : ∀ i, pos ≤ i → i < p → ∃ d, input[i]? = some d ∧ IsSpace d = true)
    (hopen : input[p]? = some o)
    (ho : (o, close) ∈ [(40, 41), (91, 93), (123, 125), (34, 34)])
    (hnone : ∀ i, p < i → input[i]? ≠ some close) :
    (∃ l e, scanToken input pos line =
        .ok ⟨⟨TokenError, (input.length : Int) - p, l, p, input.drop p⟩, input.length + 1, l,
          some e⟩) ∧
      runMain (bytes "(a, b") =
        ⟨[.error (.unclosedDelimiter 1 0 (bytes "(")),
          .token ⟨TokenError, 5, 1, 0, bytes "(a, b"⟩], 1, none⟩ := by
  refine ⟨?_, by decide⟩
  have hsp : IsSpace o = false := by
    simp only [List.mem_cons, Prod.mk.injEq, List.mem_singleton, List.not_mem_nil, or_false] at ho
    rcases ho with ⟨rfl, _⟩ | ⟨rfl, _⟩ | ⟨rfl, _⟩ | ⟨rfl, _⟩ <;> rfl
  obtain ⟨l, hl⟩ := scanToken_at line hle hws hopen hsp
  by_cases hq : o = 34
  · subst hq
    have hcl : close = 34 := by
      simp only [List.mem_cons, Prod.mk.injEq, List.mem_singleton, List.not_mem_nil, or_false]
        at ho
      rcases ho with ⟨h, _⟩ | ⟨h, _⟩ | ⟨h, _⟩ | ⟨_, h⟩
      · omega
      · omega
      · omega
      · exact h
    subst hcl
    exact ⟨l, _, by rw [hl, classify_quote l hopen, scanString_unclosed l hopen hnone]⟩
  · have ho2 : (o, close) ∈ [(40, 41), (91, 93), (123, 125)] := by
      simp only [List.mem_cons, Prod.mk.injEq, List.mem_singleton, List.not_mem_nil, or_false]
        at ho ⊢
      rcases ho with h | h | h | ⟨h, _⟩
      · exact Or.inl h
      · exact Or.inr (Or.inl h)
      · exact Or.inr (Or.inr h)
      · exact absurd h hq
    have ho128 : o < 128 := by
      simp only [List.mem_cons, Prod.mk.injEq, List.mem_singleton, List.not_mem_nil, or_false]
        at ho2
      omega
    exact ⟨l, _, by
      rw [hl, classify_bracket l hopen ho2, scanBracket_unclosed l hopen ho128 hnone]⟩

/-- An instance of `scanToken_unterminated`: an unclosed `[` after a space. -/
theorem scanToken_unterminated_witness :
    (∃ l e, scanToken (bytes "x [1, 2") 1 1 =
        .ok ⟨⟨TokenError, ((bytes "x [1, 2").length : Int) - (2 : Nat), l, 2,
            (bytes "x [1, 2").drop 2⟩, (bytes "x [1, 2").length + 1, l, some e⟩) ∧
      runMain (bytes "(a, b") =
        ⟨[.error (.unclosedDelimiter 1 0 (bytes "(")),
          .token ⟨TokenError, 5, 1, 0, bytes "(a, b"⟩], 1, none⟩ :=
  scanToken_unterminated (bytes "x [1, 2") 1 2 1 91 93 (by decide)
    (by
      intro i h1 h2
      have : i = 1 := by omega
      subst this
      exact ⟨32, by decide, by decide⟩)
    (by decide) (by decide)
    (by
      intro i hi
      by_cases h : i < 7
      · have : i = 3 ∨ i = 4 ∨ i = 5 ∨ i = 6 := by omega
        rcases this with rfl | rfl | rfl | rfl <;> decide
      · rw [List.getElem?_eq_none (by simpa [bytes] using Nat.le_of_not_lt h)]
        simp)


/-! ## White space up to the end of the input -/

theorem crlfAt_of_get {input : List Nat} {pos c d : Nat}
    (hc : input[pos]? = some c) (hd : input[pos + 1]? = some d) :
    crlfAt input pos = .ok (c == 13 && d == 10) := by
  unfold crlfAt
  rw [test_of_get hc, test_of_get hd]
  cases c == 13 <;> simp [andAlso]

theorem crlfAt_of_ne {input : List Nat} {pos c : Nat}
    (hc : input[pos]? = some c) (hne : c ≠ 13) : crlfAt input pos = .ok false := by
  unfold crlfAt
  rw [test_of_get hc]
  have h : (c == 13) = false := by simpa using hne
  simp only [h, andAlso]

theorem crlfAt_at_end {input : List Nat} {pos : Nat}
    (hc : input[pos]? = some 13) (hend : pos + 1 = input.length) :
    crlfAt input pos = .fail .indexOutOfRange := by
  unfold crlfAt
  rw [test_of_get hc]
  simp [andAlso, test, List.getElem?_eq_none (Nat.le_of_eq hend.symm)]

/-- The whitespace loop skips a run of white space in which every carriage
return has a byte after it. -/
theorem skipSpace_through {input : List Nat} (q : Nat) :
    ∀ (fuel pos : Nat) (line : Int), pos ≤ q → q - pos ≤ fuel →
      (∀ i, pos ≤ i → i < q →
        ∃ c, input[i]? = some c ∧ IsSpace c = true ∧ (c = 13 → i + 1 < input.length)) →
      skipCond input q = .ok false →
      ∃ l, skipSpace input fuel pos line = .ok (q, l) := by
  intro fuel
  induction fuel with
  | zero =>
    intro pos line h1 h2 _ hstop
    have : pos = q := by omega
    subst this
    exact ⟨line, by unfold skipSpace; simp [hstop]⟩
  | succ n ih =>
    intro pos line h1 h2 hall hstop
    unfold skipSpace
    rcases Nat.eq_or_lt_of_le h1 with h | h
    · subst h; exact ⟨line, by simp [hstop]⟩
    · obtain ⟨c, hc, hs, hcr⟩ := hall pos (le_refl _) h
      rw [skipCond_of_get hc, hs]
      have hrest := fun l => ih (pos + 1) l (by omega) (by omega)
        (fun i hi hi2 => hall i (by omega) hi2) hstop
      by_cases h13 : c = 13
      · obtain ⟨d, hd⟩ := get_of_lt (hcr h13)
        simp only [crlfAt_of_get hc hd]
        cases (c == 13 && d == 10)
        · exact hrest line
        · exact hrest _
      · simp only [crlfAt_of_ne hc h13]
        exact hrest line

/-- The whitespace loop panics at a carriage return that is the last byte of
the input. -/
theorem skipSpace_cr_at_end {input : List Nat} (q : Nat) (hq : input[q]? = some 13)
    (hend : q + 1 = input.length) :
    ∀ (fuel pos : Nat) (line : Int), pos ≤ q → q - pos < fuel →
      (∀ i, pos ≤ i → i < q → ∃ c, input[i]? = some c ∧ IsSpace c = true) →
      skipSpace input fuel pos line = .fail .indexOutOfRange := by
  intro fuel
  induction fuel with
  | zero => intro pos line _ h2; omega
  | succ n ih =>
    intro pos line h1 h2 hall
    unfold skipSpace
    rcases Nat.eq_or_lt_of_le h1 with h | h
    · subst h
      have h13 : IsSpace 13 = true := rfl
      rw [skipCond_of_get hq, h13]
      simp only [crlfAt_at_end hq hend]
    · obtain ⟨c, hc, hs⟩ := hall pos (le_refl _) h
      obtain ⟨d, hd⟩ := get_of_lt (show pos + 1 < input.length by omega)
      rw [skipCond_of_get hc, hs]
      have hrest := fun l => ih (pos + 1) l (by omega) (by omega)
        (fun i hi hi2 => hall i (by omega) hi2)
      simp only [crlfAt_of_get hc hd]
      cases (c == 13 && d == 10)
      · exact hrest line
      · exact hrest _

/-- White space alone: for an input made only of spaces, tabs, carriage
returns and line feeds, `scanToken(input, 0, 1)` returns a `TokenEOF` token
with `Length` 0, a nil error and `newPos = len(input)` unless the last byte is
a carriage return; in that case the body of the whitespace loop reads
`input[pos+1]` past the end and the call panics. -/
theorem scanToken_whitespace (input : List Nat)
    (hws : ∀ c ∈ input, c = 32 ∨ c = 9 ∨ c = 13 ∨ c = 10) :
    (input.getLast? ≠ some 13 →
        ∃ l, scanToken input 0 1 =
          .ok ⟨⟨TokenEOF, 0, l, input.length, []⟩, input.length, l, none⟩) ∧
      (input.getLast? = some 13 → scanToken input 0 1 = .fail .indexOutOfRange) := by
  have hsp : ∀ i, i < input.length → ∃ c, input[i]? = some c ∧ IsSpace c = true := by
    intro i hi
    obtain ⟨c, hc, hp⟩ := get_of_forall_mem hws hi
    refine ⟨c, hc, ?_⟩
    rcases hp with rfl | rfl | rfl | rfl <;> rfl
  refine ⟨fun hlast => ?_, fun hlast => ?_⟩
  · have hrun : ∀ i, 0 ≤ i → i < input.length →
        ∃ c, input[i]? = some c ∧ IsSpace c = true ∧ (c = 13 → i + 1 < input.length) := by
      intro i _ hi
      obtain ⟨c, hc, hs⟩ := hsp i hi
      refine ⟨c, hc, hs, fun h13 => ?_⟩
      by_contra hn
      have : i = input.length - 1 := by omega
      rw [List.getLast?_eq_getElem?, ← this, hc, h13] at hlast
      exact hlast rfl
    obtain ⟨l, hl⟩ := skipSpace_through input.length (input.length - 0) 0 1 (Nat.zero_le _)
      (le_refl _) hrun (skipCond_of_ge (le_refl _))
    refine ⟨l, ?_⟩
    unfold scanToken
    rw [hl]
    simp [andThen]
  · rw [List.getLast?_eq_getElem?] at hlast
    have hlt := lt_of_get hlast
    have := skipSpace_cr_at_end (input.length - 1) hlast (by omega) (input.length - 0) 0 1
      (Nat.zero_le _) (by omega) (fun i _ hi => hsp i (by omega))
    unfold scanToken
    rw [this]
    rfl

/-- An instance of `scanToken_whitespace`. -/
theorem scanToken_whitespace_witness :
    (((bytes " \r\n\t ").getLast? ≠ some 13 →
        ∃ l, scanToken (bytes " \r\n\t ") 0 1 =
          .ok ⟨⟨TokenEOF, 0, l, (bytes " \r\n\t ").length, []⟩, (bytes " \r\n\t ").length, l,
            none⟩) ∧
      ((bytes " \r\n\t ").getLast? = some 13 →
        scanToken (bytes " \r\n\t ") 0 1 = .fail .indexOutOfRange)) :=
  scanToken_whitespace (bytes " \r\n\t ") (by decide)

/-! ## Identifiers that begin with an underscore -/

theorem underscoreCond_of_get {input : List Nat} {i c : Nat} (h : input[i]? = some c) :
    underscoreCond input i = .ok (IsLetter c || IsDigit c || c == 95) := by
  unfold underscoreCond
  rw [inBounds_of_lt (lt_of_get h), test_of_get h, test_of_get h, test_of_get h]
  cases IsLetter c <;> cases IsDigit c <;> simp [andAlso, orElse]

theorem underscoreCond_at_end (input : List Nat) :
    underscoreCond input input.length = .fail .indexOutOfRange := by
  unfold underscoreCond
  rw [inBounds_of_ge (le_refl _)]
  simp [andAlso, orElse, test]

theorem classify_underscore {input : List Nat} {p c : Nat} (line : Int)
    (h : input[p]? = some 95) (hc : input[p + 1]? = some c) (hl : IsLetter c = true) :
    classify input p line = scanUnderscore input p line := by
  have h95 : IsLetter 95 = false := by decide
  simp [classify, test_of_get h, test_of_get hc, hl, h95, branch, andAlso]

/-- The underscore case in general: when the first significant byte, at offset `p`, is an underscore immediately followed by a letter and
the run of letters, digits and underscores from `p` ends before `q`, then
`scanToken` returns a `TokenIdent` token with `Pos = p`, the run as `Value`,
its length as `Length`, `newPos = q` and a nil error provided that a byte
which does not belong to the run follows at `q`; when the run extends to the
end of the input (`q = len(input)`) the loop condition reads
`input[len(input)]` and the call panics. -/
theorem scanToken_underscore (input : List Nat) (pos p q : Nat) (line : Int)
    (hle : pos ≤ p)
    (hws : ∀ i, pos ≤ i → i < p → ∃ d, input[i]? = some d ∧ IsSpace d = true)
    (hus : input[p]? = some 95)
    (hletter : ∃ c, input[p + 1]? = some c ∧ IsLetter c = true)
    (hpq : p < q)
    (hrun : ∀ i, p ≤ i → i < q →
      ∃ c, input[i]? = some c ∧ (IsLetter c = true ∨ IsDigit c = true ∨ c = 95)) :
    (∀ c, input[q]? = some c → IsLetter c = false → IsDigit c = false → c ≠ 95 →
        ∃ l, scanToken input pos line =
          .ok ⟨⟨TokenIdent, (q : Int) - p, l, p, (input.drop p).take (q - p)⟩, q, l, none⟩) ∧
      (q = input.length → scanToken input pos line = .fail .indexOutOfRange) := by
  obtain ⟨c1, hc1, hl1⟩ := hletter
  obtain ⟨l, hl⟩ := scanToken_at line hle hws hus (by decide)
  have hbody : ∀ i, p ≤ i → i < q →
      underscoreCond input i = .ok true ∧ noBreak i = .ok false := by
    intro i hi hi2
    obtain ⟨c, hc, hp⟩ := hrun i hi hi2
    refine ⟨?_, rfl⟩
    rw [underscoreCond_of_get hc]
    rcases hp with h | h | h
    · simp [h]
    · simp [h]
    · simp [h]
  have hqlen : q ≤ input.length := by
    obtain ⟨c, hc, _⟩ := hrun (q - 1) (by omega) (by omega)
    have := lt_of_get hc
    omega
  refine ⟨fun c hc hL hD h95 => ⟨l, ?_⟩, fun hend => ?_⟩
  · have hstop : underscoreCond input q = .ok false := by
      rw [underscoreCond_of_get hc, hL, hD]
      simpa using h95
    have hqlt := lt_of_get hc
    rw [hl, classify_underscore l hus hc1 hl1]
    unfold scanUnderscore
    rw [scanLoop_run q _ _ (Nat.le_of_lt hpq) (by omega) hbody hstop]
    simp only [andThen, slice]
    rw [if_pos ⟨Nat.le_of_lt hpq, hqlen⟩]
  · subst hend
    rw [hl, classify_underscore l hus hc1 hl1]
    unfold scanUnderscore
    rw [scanLoop_fail _ _ _ _ (Nat.le_of_lt hpq) (le_refl _) hbody (underscoreCond_at_end input)]
    rfl

/-- An instance of `scanToken_underscore`: the identifier `_tmp_1` followed by
a semicolon. -/
theorem scanToken_underscore_witness :
    (∀ c, (bytes "x = _tmp_1;")[10]? = some c → IsLetter c = false → IsDigit c = false →
        c ≠ 95 →
        ∃ l, scanToken (bytes "x = _tmp_1;") 3 1 =
          .ok ⟨⟨TokenIdent, ((10 : Nat) : Int) - (4 : Nat), l, 4,
            ((bytes "x = _tmp_1;").drop 4).take (10 - 4)⟩, 10, l, none⟩) ∧
      (10 = (bytes "x = _tmp_1;").length →
        scanToken (bytes "x = _tmp_1;") 3 1 = .fail .indexOutOfRange) :=
  scanToken_underscore (bytes "x = _tmp_1;") 3 4 10 1 (by decide)
    (by
      intro i h1 h2
      have : i = 3 := by omega
      subst this
      exact ⟨32, by decide, by decide⟩)
    (by decide) ⟨116, by decide, by decide⟩ (by decide)
    (by
      intro i h1 h2
      have : i = 4 ∨ i = 5 ∨ i = 6 ∨ i = 7 ∨ i = 8 ∨ i = 9 := by omega
      rcases this with rfl | rfl | rfl | rfl | rfl | rfl
      · exact ⟨95, by decide, by decide⟩
      · exact ⟨116, by decide, by decide⟩
      · exact ⟨109, by decide, by decide⟩
      · exact ⟨112, by decide, by decide⟩
      · exact ⟨95, by decide, by decide⟩
      · exact ⟨49, by decide, by decide⟩)

/-! ## Inputs that end inside a look-ahead -/

/-- Claim C5, at inputs on which it fails: on white space that ends with a
carriage return the body of the whitespace loop reads `input[pos+1]` past the
end of the input, so `scanToken` panics instead of returning `TokenEOF`; with
a line feed after the carriage return, or without the carriage return, the
same inputs give `TokenEOF` with length 0 at `len(input)`
(`scanToken_whitespace` is the general statement). -/
theorem scanToken_whitespace_trailing_cr :
    scanToken (bytes "\r") 0 1 = .fail .indexOutOfRange ∧
    scanToken (bytes " \t\n\r") 0 1 = .fail .indexOutOfRange ∧
    scanToken (bytes "\r\n\r") 0 1 = .fail .indexOutOfRange ∧
    scanToken (bytes "\r\n") 0 1 = .ok ⟨⟨TokenEOF, 0, 2, 2, []⟩, 2, 2, none⟩ ∧
    scanToken (bytes " \t\n") 0 1 = .ok ⟨⟨TokenEOF, 0, 1, 3, []⟩, 3, 1, none⟩ ∧
    scanToken (bytes "") 0 1 = .ok ⟨⟨TokenEOF, 0, 1, 0, []⟩, 0, 1, none⟩ := by
  decide

/-- Claim C7, at inputs on which it fails: in the loop condition of the
underscore case the test `input[pos] == '_'` is outside the guard
`pos < len(input)`, so when the run of letters, digits and underscores extends
to the end of the input the loop reads `input[len(input)]` and `scanToken`
panics instead of returning the identifier; `_a` scanned alone is such an
input. When another byte follows the run the identifier is returned
(`scanToken_underscore` is the general statement). -/
theorem scanToken_underscore_at_end :
    scanToken (bytes "_a") 0 1 = .fail .indexOutOfRange ∧
    scanToken (bytes "x = _tmp_1") 4 1 = .fail .indexOutOfRange ∧
    scanToken (bytes "_a ") 0 1 = .ok ⟨⟨TokenIdent, 2, 1, 0, bytes "_a"⟩, 2, 1, none⟩ ∧
    scanToken (bytes "x = _tmp_1;") 4 1 =
      .ok ⟨⟨TokenIdent, 6, 1, 4, bytes "_tmp_1"⟩, 10, 1, none⟩ := by
  decide

/-! ## Segments of the input -/

theorem slice_eq_ok {input : List Nat} {lo hi : Nat} {v : List Nat} :
    slice input lo hi = .ok v ↔ lo ≤ hi ∧ hi ≤ input.length ∧ v = segment input lo hi := by
  unfold slice segment
  by_cases h : lo ≤ hi ∧ hi ≤ input.length
  · rw [if_pos h]
    simp only [Outcome.ok.injEq]
    exact ⟨fun hv => ⟨h.1, h.2, hv.symm⟩, fun hv => hv.2.2.symm⟩
  · rw [if_neg h]
    constructor
    · intro hv; cases hv
    · intro hv; exact absurd ⟨hv.1, hv.2.1⟩ h

theorem segment_length {input : List Nat} (lo : Nat) {hi : Nat} (h : hi ≤ input.length) :
    (segment input lo hi).length = hi - lo := by
  unfold segment
  rw [List.length_take, List.length_drop]
  omega

theorem segment_append {input : List Nat} {lo mid hi : Nat} (h1 : lo ≤ mid) (h2 : mid ≤ hi) :
    segment input lo hi = segment input lo mid ++ segment input mid hi := by
  unfold segment
  have : hi - lo = (mid - lo) + (hi - mid) := by omega
  rw [this, List.take_add, List.drop_drop]
  have : lo + (mid - lo) = mid := by omega
  rw [this]

theorem segment_one {input : List Nat} {i c : Nat} (h : input[i]? = some c) :
    segment input i (i + 1) = [c] := by
  unfold segment
  have hlt := lt_of_get h
  rw [List.drop_eq_getElem_cons hlt]
  have : input[i] = c := by
    rw [List.getElem?_eq_getElem hlt] at h
    exact Option.some.inj h
  simp [this]

theorem segment_cons {input : List Nat} {lo hi c : Nat} (h : input[lo]? = some c)
    (hlt : lo < hi) : segment input lo hi = c :: segment input (lo + 1) hi := by
  rw [segment_append (Nat.le_succ lo) hlt, segment_one h]
  rfl

theorem segment_snoc {input : List Nat} {lo hi c : Nat} (h : input[hi]? = some c)
    (hle : lo ≤ hi) : segment input lo (hi + 1) = segment input lo hi ++ [c] := by
  rw [segment_append hle (Nat.le_succ hi), segment_one h]

theorem stringAt_eq_ok {input : List Nat} {i : Nat} {v : List Nat} :
    stringAt input i = .ok v ↔ ∃ c, input[i]? = some c ∧ v = stringOfByte c := by
  unfold stringAt
  cases h : input[i]? with
  | none => simp
  | some c => simp [eq_comm]

theorem stringOfByte_ascii {c : Nat} (h : c < 128) : stringOfByte c = [c] := by
  simp [stringOfByte, h]

/-! ## The first significant byte -/

theorem firstSignificant_unique {input : List Nat} {pos p q : Nat}
    (hp : FirstSignificant input pos p) (hq : FirstSignificant input pos q) : p = q := by
  obtain ⟨hp1, hp2, hp3⟩ := hp
  obtain ⟨hq1, hq2, hq3⟩ := hq
  rcases Nat.lt_trichotomy p q with h | h | h
  · obtain ⟨c, hc, hs⟩ := hq2 p hp1 h
    rw [hp3 c hc] at hs
    exact Bool.noConfusion hs
  · exact h
  · obtain ⟨c, hc, hs⟩ := hp2 q hq1 h
    rw [hq3 c hc] at hs
    exact Bool.noConfusion hs

theorem skipCond_eq_true {input : List Nat} {pos : Nat} (h : skipCond input pos = .ok true) :
    ∃ c, input[pos]? = some c ∧ IsSpace c = true := by
  by_cases hlt : pos < input.length
  · obtain ⟨c, hc⟩ := get_of_lt hlt
    rw [skipCond_of_get hc] at h
    exact ⟨c, hc, by simpa using h⟩
  · rw [skipCond_of_ge (by omega)] at h
    simp at h

theorem skipCond_eq_false {input : List Nat} {pos : Nat} (h : skipCond input pos = .ok false) :
    ∀ c, input[pos]? = some c → IsSpace c = false := by
  intro c hc
  rw [skipCond_of_get hc] at h
  simpa using h

/-- The whitespace loop stops at the first significant byte. -/
theorem skipSpace_first {input : List Nat} :
    ∀ (fuel pos : Nat) (line : Int) (c : Nat × Int),
      skipSpace input fuel pos line = .ok c → FirstSignificant input pos c.1 := by
  intro fuel
  induction fuel with
  | zero =>
    intro pos line c h
    unfold skipSpace at h
    rcases hc : skipCond input pos with (_ | _) | _ <;> simp [hc] at h
    subst h
    exact ⟨le_refl _, fun i h1 h2 => absurd h2 (by simp; omega), skipCond_eq_false hc⟩
  | succ n ih =>
    intro pos line c h
    unfold skipSpace at h
    rcases hc : skipCond input pos with (_ | _) | _ <;> simp [hc] at h
    · subst h
      exact ⟨le_refl _, fun i h1 h2 => absurd h2 (by simp; omega), skipCond_eq_false hc⟩
    · have hstep : ∀ l, skipSpace input n (pos + 1) l = .ok c →
          FirstSignificant input pos c.1 := by
        intro l hl
        obtain ⟨h1, h2, h3⟩ := ih _ _ _ hl
        refine ⟨by omega, fun i hi hi2 => ?_, h3⟩
        rcases Nat.eq_or_lt_of_le hi with rfl | hlt
        · exact skipCond_eq_true hc
        · exact h2 i hlt hi2
      rcases hb : crlfAt input pos with (_ | _) | _ <;> simp [hb] at h
      · exact hstep _ h
      · exact hstep _ h

/-! ## Where the token of each case lies -/

theorem delimiterCond_ascii {input : List Nat} {pos : Nat}
    (h : delimiterCond input pos = .ok true) : ∃ c, input[pos]? = some c ∧ c < 128 := by
  cases hg : input[pos]? with
  | none => simp [delimiterCond, test, hg, orElse] at h
  | some c =>
    refine ⟨c, rfl, ?_⟩
    by_contra hc
    have e : ∀ k, k < 128 → (c == k) = false := by
      intro k hk
      simp only [beq_eq_false_iff_ne, ne_eq]
      omega
    simp [delimiterCond, test_of_get hg, orElse, andAlso, e] at h

theorem operator_ascii {c : Nat} (h : Contains operators (stringOfByte c) = true) : c < 128 := by
  by_contra hc
  have h2 : stringOfByte c = [192 + c / 64, 128 + c % 64] := by
    simp [stringOfByte, hc]
  rw [h2] at h
  have e : ∀ k, k < 128 → ¬ k = 192 + c / 64 := by intro k hk; omega
  simp [Contains, operators, bytes, e] at h

end Lexer
namespace Lexer
open TokenType

theorem scanIdentifier_layout {input : List Nat} {start : Nat} {line : Int} {r : ScanResult}
    (h : scanIdentifier input start line = .ok r) : Layout input start r := by
  unfold scanIdentifier at h
  obtain ⟨pos, hloop, h⟩ := andThen_eq_ok.mp h
  obtain ⟨s, hs, h⟩ := andThen_eq_ok.mp h
  obtain ⟨h1, h2, rfl⟩ := slice_eq_ok.mp hs
  have hlen := segment_length start h2
  rw [keywords_lookup] at h
  by_cases hk : segment input start pos ∈ keywords.map Prod.fst
  · rw [if_pos hk] at h
    cases h
    simp [Layout, commentError, unterminated, hlen, h2]; omega
  · rw [if_neg hk] at h
    cases h
    simp [Layout, commentError, unterminated, hlen, h2]; omega

theorem scanUnderscore_layout {input : List Nat} {start : Nat} {line : Int} {r : ScanResult}
    (h : scanUnderscore input start line = .ok r) : Layout input start r := by
  unfold scanUnderscore at h
  obtain ⟨pos, hloop, h⟩ := andThen_eq_ok.mp h
  obtain ⟨s, hs, h⟩ := andThen_eq_ok.mp h
  obtain ⟨h1, h2, rfl⟩ := slice_eq_ok.mp hs
  have hlen := segment_length start h2
  cases h
  simp [Layout, commentError, unterminated, hlen, h2]; omega

theorem scanNumber_layout {input : List Nat} {start : Nat} {line : Int} {r : ScanResult}
    (h : scanNumber input start line = .ok r) : Layout input start r := by
  unfold scanNumber at h
  obtain ⟨pos, hloop, h⟩ := andThen_eq_ok.mp h
  obtain ⟨s, hs, h⟩ := andThen_eq_ok.mp h
  obtain ⟨t, _, h⟩ := andThen_eq_ok.mp h
  obtain ⟨h1, h2, rfl⟩ := slice_eq_ok.mp hs
  have hlen := segment_length start h2
  split at h <;> cases h <;>
    simp [Layout, commentError, unterminated, hlen, h2] <;> omega

theorem scanFraction_layout {input : List Nat} {start : Nat} {line : Int} {r : ScanResult}
    (h : scanFraction input start line = .ok r) : Layout input start r := by
  unfold scanFraction at h
  obtain ⟨pos, hloop, h⟩ := andThen_eq_ok.mp h
  obtain ⟨s, hs, h⟩ := andThen_eq_ok.mp h
  obtain ⟨h1, h2, rfl⟩ := slice_eq_ok.mp hs
  have hlen := segment_length start h2
  cases h
  simp [Layout, commentError, unterminated, hlen, h2]; omega

theorem scanBracket_layout {input : List Nat} {start : Nat} {line : Int} {close : Nat}
    {r : ScanResult} (hc : ∃ c, input[start]? = some c ∧ c < 128)
    (h : scanBracket input start line close = .ok r) : Layout input start r := by
  obtain ⟨c, hget, hc⟩ := hc
  unfold scanBracket at h
  obtain ⟨pos, hloop, h⟩ := andThen_eq_ok.mp h
  have hle := scanLoop_le _ _ _ hloop
  split at h
  · rename_i hge
    obtain ⟨s, hs, h⟩ := andThen_eq_ok.mp h
    obtain ⟨t, _, h⟩ := andThen_eq_ok.mp h
    obtain ⟨h1, h2, rfl⟩ := slice_eq_ok.mp hs
    have hpos : pos = input.length := by omega
    cases h
    simp [Layout, commentError, unterminated, hpos]
  · rename_i hlt
    obtain ⟨s, hs, h⟩ := andThen_eq_ok.mp h
    obtain ⟨d, hd, rfl⟩ := stringAt_eq_ok.mp hs
    rw [hget] at hd
    cases hd
    have := lt_of_get hget
    cases h
    simp [Layout, commentError, unterminated, stringOfByte_ascii hc]
    omega

theorem scanDelimiter_layout {input : List Nat} {pos : Nat} {line : Int} {r : ScanResult}
    (hc : delimiterCond input pos = .ok true)
    (h : scanDelimiter input pos line = .ok r) : Layout input pos r := by
  have hascii := delimiterCond_ascii hc
  unfold scanDelimiter at h
  rcases branch_eq_ok.mp h with ⟨_, h⟩ | ⟨_, h⟩
  · exact scanBracket_layout hascii h
  rcases branch_eq_ok.mp h with ⟨_, h⟩ | ⟨_, h⟩
  · exact scanBracket_layout hascii h
  rcases branch_eq_ok.mp h with ⟨_, h⟩ | ⟨_, h⟩
  · exact scanBracket_layout hascii h
  obtain ⟨c, hget, hc⟩ := hascii
  obtain ⟨s, hs, h⟩ := andThen_eq_ok.mp h
  obtain ⟨d, hd, rfl⟩ := stringAt_eq_ok.mp hs
  rw [hget] at hd
  cases hd
  have := lt_of_get hget
  cases h
  simp [Layout, commentError, unterminated, stringOfByte_ascii hc]
  omega

theorem scanString_layout {input : List Nat} {start : Nat} {line : Int} {r : ScanResult}
    (h : scanString input start line = .ok r) : Layout input start r := by
  unfold scanString at h
  obtain ⟨pos, hloop, h⟩ := andThen_eq_ok.mp h
  have hle := scanLoop_le _ _ _ hloop
  split at h
  · rename_i hge
    obtain ⟨s, hs, h⟩ := andThen_eq_ok.mp h
    obtain ⟨h1, h2, rfl⟩ := slice_eq_ok.mp hs
    have hpos : pos = input.length := by omega
    cases h
    simp [Layout, commentError, unterminated, hpos]
  · rename_i hlt
    obtain ⟨s, hs, h⟩ := andThen_eq_ok.mp h
    obtain ⟨h1, h2, rfl⟩ := slice_eq_ok.mp hs
    have hlen := segment_length (start + 1) h2
    cases h
    simp [Layout, commentError, unterminated, hlen]
    omega

theorem scanLineComment_layout {input : List Nat} {pos0 : Nat} {line : Int} {r : ScanResult}
    (h : scanLineComment input pos0 line = .ok r) : Layout input pos0 r := by
  unfold scanLineComment at h
  obtain ⟨pos, hloop, h⟩ := andThen_eq_ok.mp h
  obtain ⟨s, hs, h⟩ := andThen_eq_ok.mp h
  obtain ⟨h1, h2, rfl⟩ := slice_eq_ok.mp hs
  cases h
  simp [Layout, commentError, unterminated, h2]

theorem scanBlockComment_layout {input : List Nat} {pos0 : Nat} {line : Int} {r : ScanResult}
    (h : scanBlockComment input pos0 line = .ok r) : Layout input pos0 r := by
  unfold scanBlockComment at h
  obtain ⟨pos, hloop, h⟩ := andThen_eq_ok.mp h
  have hle := scanLoop_le _ _ _ hloop
  have hstop := scanLoop_stop _ _ _ hloop
  split at h
  · rename_i hge
    obtain ⟨s, hs, h⟩ := andThen_eq_ok.mp h
    obtain ⟨h1, h2, rfl⟩ := slice_eq_ok.mp hs
    have hpos : pos = input.length := by omega
    cases h
    simp [Layout, commentError, unterminated, hpos]
  · rename_i hlt
    obtain ⟨s, hs, h⟩ := andThen_eq_ok.mp h
    have hstar : starSlashAt input pos = .ok true := by
      rcases hstop with hstop | hstop
      · unfold blockCommentCond at hstop
        rw [inBounds_of_lt (by omega)] at hstop
        rcases hss : starSlashAt input pos with (_ | _) | _ <;>
          simp [hss, andAlso, notB] at hstop
        rfl
      · exact hstop
    obtain ⟨_, hnext⟩ := andAlso_eq_true hstar
    obtain ⟨c, hc, _⟩ := test_eq_ok.mp hnext
    have := lt_of_get hc
    cases h
    simp [Layout, commentError, unterminated]
    omega

theorem scanOperatorToken_layout {input : List Nat} {pos : Nat} {line : Int} {r : ScanResult}
    (hc : ∃ c, input[pos]? = some c ∧ c < 128)
    (h : scanOperatorToken input pos line = .ok r) : Layout input pos r := by
  obtain ⟨c, hget, hc⟩ := hc
  unfold scanOperatorToken at h
  obtain ⟨s, _, h⟩ := andThen_eq_ok.mp h
  split at h
  · obtain ⟨s, hs, h⟩ := andThen_eq_ok.mp h
    obtain ⟨h1, h2, rfl⟩ := slice_eq_ok.mp hs
    have hlen := segment_length pos h2
    cases h
    simp [Layout, commentError, unterminated, hlen, h2]
  · obtain ⟨s, hs, h⟩ := andThen_eq_ok.mp h
    obtain ⟨d, hd, rfl⟩ := stringAt_eq_ok.mp hs
    rw [hget] at hd
    cases hd
    have := lt_of_get hget
    cases h
    simp [Layout, commentError, unterminated, stringOfByte_ascii hc]
    omega

theorem scanOperator_layout {input : List Nat} {pos : Nat} {line : Int} {r : ScanResult}
    (hc : ∃ c, input[pos]? = some c ∧ c < 128)
    (h : scanOperator input pos line = .ok r) : Layout input pos r := by
  unfold scanOperator at h
  rcases branch_eq_ok.mp h with ⟨_, h⟩ | ⟨_, h⟩
  · rcases branch_eq_ok.mp h with ⟨_, h⟩ | ⟨_, h⟩
    · exact scanLineComment_layout h
    rcases branch_eq_ok.mp h with ⟨_, h⟩ | ⟨_, h⟩
    · exact scanBlockComment_layout h
    · exact scanOperatorToken_layout hc h
  · exact scanOperatorToken_layout hc h

theorem scanForeign_layout {input : List Nat} {pos : Nat} {line : Int} {r : ScanResult}
    (h : scanForeign input pos line = .ok r) : Layout input pos r := by
  unfold scanForeign at h
  obtain ⟨s, _, h⟩ := andThen_eq_ok.mp h
  split at h
  · cases h
  · rename_i c hget
    have := lt_of_get hget
    cases h
    simp [Layout, commentError, unterminated]
    omega

theorem classify_layout {input : List Nat} {pos : Nat} {line : Int} {r : ScanResult}
    (h : classify input pos line = .ok r) : Layout input pos r := by
  unfold classify at h
  rcases branch_eq_ok.mp h with ⟨_, h⟩ | ⟨_, h⟩
  · exact scanIdentifier_layout h
  rcases branch_eq_ok.mp h with ⟨_, h⟩ | ⟨_, h⟩
  · exact scanUnderscore_layout h
  rcases branch_eq_ok.mp h with ⟨_, h⟩ | ⟨_, h⟩
  · exact scanNumber_layout h
  rcases branch_eq_ok.mp h with ⟨_, h⟩ | ⟨_, h⟩
  · exact scanFraction_layout h
  rcases branch_eq_ok.mp h with ⟨hc, h⟩ | ⟨_, h⟩
  · exact scanDelimiter_layout hc h
  rcases branch_eq_ok.mp h with ⟨_, h⟩ | ⟨_, h⟩
  · exact scanString_layout h
  rcases branch_eq_ok.mp h with ⟨hc, h⟩ | ⟨_, h⟩
  · obtain ⟨s, hs, hcont⟩ := andThen_eq_ok.mp hc
    obtain ⟨c, hget, rfl⟩ := stringAt_eq_ok.mp hs
    have hcont2 : Contains operators (stringOfByte c) = true := by
      simpa using hcont
    exact scanOperator_layout ⟨c, hget, operator_ascii hcont2⟩ h
  · exact scanForeign_layout h

/-! ## The span consumed by a string or comment token -/

theorem get_of_test_eq {input : List Nat} {i k : Nat}
    (h : test input i (· == k) = .ok true) : input[i]? = some k := by
  obtain ⟨c, hc, hk⟩ := test_eq_ok.mp h
  have : c = k := by simpa using hk
  rw [hc, this]

theorem untilLoop_stop {input : List Nat} {close fuel start pos : Nat}
    (h : scanLoop (untilCond input close) (untilBreak input close) fuel start = .ok pos)
    (hlt : pos < input.length) : input[pos]? = some close := by
  rcases scanLoop_stop _ _ _ h with hstop | hstop
  · unfold untilCond at hstop
    rw [inBounds_of_lt hlt] at hstop
    obtain ⟨c, hc⟩ := get_of_lt hlt
    rw [test_of_get hc] at hstop
    have : c = close := by simpa [andAlso] using hstop
    rw [hc, this]
  · exact get_of_test_eq hstop

theorem scanIdentifier_roundTrip {input : List Nat} {start : Nat} {line : Int} {r : ScanResult}
    (h : scanIdentifier input start line = .ok r) : RoundTrip input start r := by
  unfold scanIdentifier at h
  obtain ⟨pos, hloop, h⟩ := andThen_eq_ok.mp h
  obtain ⟨s, hs, h⟩ := andThen_eq_ok.mp h
  rw [keywords_lookup] at h
  by_cases hk : s ∈ keywords.map Prod.fst
  · rw [if_pos hk] at h
    cases h; simp [RoundTrip]
  · rw [if_neg hk] at h
    cases h; simp [RoundTrip]

theorem scanUnderscore_roundTrip {input : List Nat} {start : Nat} {line : Int} {r : ScanResult}
    (h : scanUnderscore input start line = .ok r) : RoundTrip input start r := by
  unfold scanUnderscore at h
  obtain ⟨pos, hloop, h⟩ := andThen_eq_ok.mp h
  obtain ⟨s, hs, h⟩ := andThen_eq_ok.mp h
  cases h; simp [RoundTrip]

theorem scanNumber_roundTrip {input : List Nat} {start : Nat} {line : Int} {r : ScanResult}
    (h : scanNumber input start line = .ok r) : RoundTrip input start r := by
  unfold scanNumber at h
  obtain ⟨pos, hloop, h⟩ := andThen_eq_ok.mp h
  obtain ⟨s, hs, h⟩ := andThen_eq_ok.mp h
  obtain ⟨t, _, h⟩ := andThen_eq_ok.mp h
  split at h <;> cases h <;> simp [RoundTrip]

theorem scanFraction_roundTrip {input : List Nat} {start : Nat} {line : Int} {r : ScanResult}
    (h : scanFraction input start line = .ok r) : RoundTrip input start r := by
  unfold scanFraction at h
  obtain ⟨pos, hloop, h⟩ := andThen_eq_ok.mp h
  obtain ⟨s, hs, h⟩ := andThen_eq_ok.mp h
  cases h; simp [RoundTrip]

theorem scanBracket_roundTrip {input : List Nat} {start : Nat} {line : Int} {close : Nat}
    {r : ScanResult} (h : scanBracket input start line close = .ok r) :
    RoundTrip input start r := by
  unfold scanBracket at h
  obtain ⟨pos, hloop, h⟩ := andThen_eq_ok.mp h
  split at h
  · obtain ⟨s, hs, h⟩ := andThen_eq_ok.mp h
    obtain ⟨t, _, h⟩ := andThen_eq_ok.mp h
    cases h; simp [RoundTrip]
  · obtain ⟨s, hs, h⟩ := andThen_eq_ok.mp h
    cases h; simp [RoundTrip]

theorem scanDelimiter_roundTrip {input : List Nat} {pos : Nat} {line : Int} {r : ScanResult}
    (h : scanDelimiter input pos line = .ok r) : RoundTrip input pos r := by
  unfold scanDelimiter at h
  rcases branch_eq_ok.mp h with ⟨_, h⟩ | ⟨_, h⟩
  · exact scanBracket_roundTrip h
  rcases branch_eq_ok.mp h with ⟨_, h⟩ | ⟨_, h⟩
  · exact scanBracket_roundTrip h
  rcases branch_eq_ok.mp h with ⟨_, h⟩ | ⟨_, h⟩
  · exact scanBracket_roundTrip h
  obtain ⟨s, hs, h⟩ := andThen_eq_ok.mp h
  cases h; simp [RoundTrip]

theorem scanString_roundTrip {input : List Nat} {start : Nat} {line : Int} {r : ScanResult}
    (hq : input[start]? = some 34)
    (h : scanString input start line = .ok r) : RoundTrip input start r := by
  unfold scanString at h
  obtain ⟨pos, hloop, h⟩ := andThen_eq_ok.mp h
  have hle := scanLoop_le _ _ _ hloop
  split at h
  · obtain ⟨s, hs, h⟩ := andThen_eq_ok.mp h
    cases h; simp [RoundTrip]
  · rename_i hlt
    obtain ⟨s, hs, h⟩ := andThen_eq_ok.mp h
    obtain ⟨h1, h2, rfl⟩ := slice_eq_ok.mp hs
    have hclose := untilLoop_stop hloop (by omega)
    cases h
    simp only [RoundTrip, true_implies, reduceCtorEq, false_implies, and_true]
    rw [segment_cons hq (by omega), segment_snoc hclose hle]

theorem scanLineComment_roundTrip {input : List Nat} {pos0 : Nat} {line : Int} {r : ScanResult}
    (h0 : input[pos0]? = some 47) (h1 : input[pos0 + 1]? = some 47)
    (h : scanLineComment input pos0 line = .ok r) : RoundTrip input pos0 r := by
  unfold scanLineComment at h
  obtain ⟨pos, hloop, h⟩ := andThen_eq_ok.mp h
  have hle := scanLoop_le _ _ _ hloop
  obtain ⟨s, hs, h⟩ := andThen_eq_ok.mp h
  obtain ⟨_, _, rfl⟩ := slice_eq_ok.mp hs
  cases h
  simp only [RoundTrip, true_implies, reduceCtorEq, false_implies, true_and]
  left
  rw [segment_cons h0 (by omega), segment_cons h1 (by omega)]

theorem scanBlockComment_roundTrip {input : List Nat} {pos0 : Nat} {line : Int} {r : ScanResult}
    (h0 : input[pos0]? = some 47) (h1 : input[pos0 + 1]? = some 42)
    (h : scanBlockComment input pos0 line = .ok r) : RoundTrip input pos0 r := by
  unfold scanBlockComment at h
  obtain ⟨pos, hloop, h⟩ := andThen_eq_ok.mp h
  have hle := scanLoop_le _ _ _ hloop
  have hstop := scanLoop_stop _ _ _ hloop
  split at h
  · obtain ⟨s, hs, h⟩ := andThen_eq_ok.mp h
    cases h; simp [RoundTrip]
  · rename_i hlt
    obtain ⟨s, hs, h⟩ := andThen_eq_ok.mp h
    obtain ⟨_, _, rfl⟩ := slice_eq_ok.mp hs
    have hstar : starSlashAt input pos = .ok true := by
      rcases hstop with hstop | hstop
      · unfold blockCommentCond at hstop
        rw [inBounds_of_lt (by omega)] at hstop
        rcases hss : starSlashAt input pos with (_ | _) | _ <;>
          simp [hss, andAlso, notB] at hstop
        rfl
      · exact hstop
    obtain ⟨hs1, hs2⟩ := andAlso_eq_true hstar
    have g1 := get_of_test_eq hs1
    have g2 := get_of_test_eq hs2
    cases h
    simp only [RoundTrip, true_implies, reduceCtorEq, false_implies, true_and]
    right
    rw [segment_cons h0 (by omega), segment_cons h1 (by omega),
      segment_snoc g2 (by omega), segment_snoc g1 (by omega)]
    simp

theorem scanOperatorToken_roundTrip {input : List Nat} {pos : Nat} {line : Int} {r : ScanResult}
    (h : scanOperatorToken input pos line = .ok r) : RoundTrip input pos r := by
  unfold scanOperatorToken at h
  obtain ⟨s, _, h⟩ := andThen_eq_ok.mp h
  split at h
  · obtain ⟨s, hs, h⟩ := andThen_eq_ok.mp h
    cases h; simp [RoundTrip]
  · obtain ⟨s, hs, h⟩ := andThen_eq_ok.mp h
    cases h; simp [RoundTrip]

theorem scanOperator_roundTrip {input : List Nat} {pos : Nat} {line : Int} {r : ScanResult}
    (h : scanOperator input pos line = .ok r) : RoundTrip input pos r := by
  unfold scanOperator at h
  rcases branch_eq_ok.mp h with ⟨hc, h⟩ | ⟨_, h⟩
  · have h0 := get_of_test_eq (andAlso_eq_true hc).1
    rcases branch_eq_ok.mp h with ⟨hc1, h⟩ | ⟨_, h⟩
    · exact scanLineComment_roundTrip h0 (get_of_test_eq hc1) h
    rcases branch_eq_ok.mp h with ⟨hc2, h⟩ | ⟨_, h⟩
    · exact scanBlockComment_roundTrip h0 (get_of_test_eq hc2) h
    · exact scanOperatorToken_roundTrip h
  · exact scanOperatorToken_roundTrip h

theorem scanForeign_roundTrip {input : List Nat} {pos : Nat} {line : Int} {r : ScanResult}
    (h : scanForeign input pos line = .ok r) : RoundTrip input pos r := by
  unfold scanForeign at h
  obtain ⟨s, _, h⟩ := andThen_eq_ok.mp h
  split at h
  · cases h
  · cases h; simp [RoundTrip]

theorem classify_roundTrip {input : List Nat} {pos : Nat} {line : Int} {r : ScanResult}
    (h : classify input pos line = .ok r) : RoundTrip input pos r := by
  unfold classify at h
  rcases branch_eq_ok.mp h with ⟨_, h⟩ | ⟨_, h⟩
  · exact scanIdentifier_roundTrip h
  rcases branch_eq_ok.mp h with ⟨_, h⟩ | ⟨_, h⟩
  · exact scanUnderscore_roundTrip h
  rcases branch_eq_ok.mp h with ⟨_, h⟩ | ⟨_, h⟩
  · exact scanNumber_roundTrip h
  rcases branch_eq_ok.mp h with ⟨_, h⟩ | ⟨_, h⟩
  · exact scanFraction_roundTrip h
  rcases branch_eq_ok.mp h with ⟨_, h⟩ | ⟨_, h⟩
  · exact scanDelimiter_roundTrip h
  rcases branch_eq_ok.mp h with ⟨hc, h⟩ | ⟨_, h⟩
  · exact scanString_roundTrip (get_of_test_eq hc) h
  rcases branch_eq_ok.mp h with ⟨_, h⟩ | ⟨_, h⟩
  · exact scanOperator_roundTrip h
  · exact scanForeign_roundTrip h

/-! ## The line counter -/

theorem crlfAt_eq_true {input : List Nat} {pos : Nat} (h : crlfAt input pos = .ok true) :
    input[pos]? = some 13 ∧ input[pos + 1]? = some 10 := by
  unfold crlfAt at h
  obtain ⟨h1, h2⟩ := andAlso_eq_true h
  exact ⟨get_of_test_eq h1, get_of_test_eq h2⟩

theorem crlfAt_eq_false {input : List Nat} {pos : Nat} (h : crlfAt input pos = .ok false) :
    ¬ (input[pos]? = some 13 ∧ input[pos + 1]? = some 10) := by
  rintro ⟨h1, h2⟩
  rw [crlfAt_of_get h1 h2] at h
  simp at h

theorem crlfPairs_succ (input : List Nat) (pos n : Nat) :
    crlfPairs input pos (n + 1) =
      (if input[pos]? = some 13 ∧ input[pos + 1]? = some 10 then 1 else 0) +
        crlfPairs input (pos + 1) n := rfl

/-- The whitespace loop increments the line once for every carriage return
that is immediately followed by a line feed in the run it skips. -/
theorem skipSpace_line {input : List Nat} :
    ∀ (fuel pos : Nat) (line : Int) (c : Nat × Int),
      skipSpace input fuel pos line = .ok c →
        c.2 = incLine^[crlfPairs input pos (c.1 - pos)] line := by
  intro fuel
  induction fuel with
  | zero =>
    intro pos line c h
    unfold skipSpace at h
    rcases hc : skipCond input pos with (_ | _) | _ <;> simp [hc] at h
    subst h
    simp [crlfPairs]
  | succ n ih =>
    intro pos line c h
    unfold skipSpace at h
    rcases hc : skipCond input pos with (_ | _) | _ <;> simp [hc] at h
    · subst h
      simp [crlfPairs]
    · rcases hb : crlfAt input pos with (_ | _) | _ <;> simp [hb] at h
      · have hle := skipSpace_le _ _ _ _ h
        have hk : c.1 - pos = (c.1 - (pos + 1)) + 1 := by omega
        rw [hk, crlfPairs_succ, if_neg (crlfAt_eq_false hb), Nat.zero_add]
        exact ih _ _ _ h
      · have hle := skipSpace_le _ _ _ _ h
        have hk : c.1 - pos = (c.1 - (pos + 1)) + 1 := by omega
        rw [hk, crlfPairs_succ, if_pos (crlfAt_eq_true hb), Nat.add_comm 1,
          Function.iterate_succ_apply]
        exact ih _ _ _ h

theorem incLine_eq {line : Int} (hlo : -2 ^ 63 ≤ line + 1) (hhi : line + 1 < 2 ^ 63) :
    incLine line = line + 1 := by
  unfold incLine
  rw [Int.emod_eq_of_lt (by omega) (by omega)]
  omega

theorem iterate_incLine :
    ∀ (k : Nat) (line : Int), -2 ^ 63 ≤ line → line + k < 2 ^ 63 →
      incLine^[k] line = line + k := by
  intro k
  induction k with
  | zero => intro line _ _; simp
  | succ n ih =>
    intro line hlo hhi
    rw [Function.iterate_succ_apply, incLine_eq (by omega) (by push_cast at hhi; omega),
      ih _ (by omega) (by push_cast at hhi ⊢; omega)]
    push_cast
    omega

/-- The cursor and the line with which the `switch` is entered, or with which
`TokenEOF` is returned. -/
theorem scanToken_line_cases {input : List Nat} {pos p : Nat} {line : Int} {r : ScanResult}
    (h : scanToken input pos line = .ok r) (hp : FirstSignificant input pos p) :
    r.newLine = incLine^[crlfPairs input pos (p - pos)] line ∧ r.token.Line = r.newLine := by
  obtain ⟨q, l, hskip, _, hcase⟩ := scanToken_cases h
  have hq := skipSpace_first _ _ _ _ hskip
  have hpq : p = q := firstSignificant_unique hp hq
  subst hpq
  have hl := skipSpace_line _ _ _ _ hskip
  simp only at hl
  rcases hcase with ⟨_, rfl⟩ | ⟨_, hcl⟩
  · exact ⟨hl, rfl⟩
  · obtain ⟨_, _, _, h4, h5, _⟩ := classify_advances hcl
    rw [h4, h5]
    exact ⟨hl, rfl⟩

/-! ## Every returning call, seen from the first significant byte -/

theorem scanToken_at_first {input : List Nat} {pos p : Nat} {line : Int} {r : ScanResult}
    (h : scanToken input pos line = .ok r) (hp : FirstSignificant input pos p) :
    ∃ l, (input.length ≤ p ∧ r = ⟨⟨TokenEOF, 0, l, p, []⟩, p, l, none⟩) ∨
      (p < input.length ∧ classify input p l = .ok r) := by
  obtain ⟨q, l, hskip, _, hcase⟩ := scanToken_cases h
  have hpq : p = q := firstSignificant_unique hp (skipSpace_first _ _ _ _ hskip)
  subst hpq
  exact ⟨l, hcase⟩

theorem firstSignificant_le {input : List Nat} {pos p : Nat}
    (hp : FirstSignificant input pos p) (hpos : pos ≤ input.length) : p ≤ input.length := by
  by_contra hn
  obtain ⟨c, hc, _⟩ := hp.2.1 input.length hpos (by omega)
  have := lt_of_get hc
  omega

/-- Claim C14: when `scanToken` returns a `TokenString` or `TokenComment`
token, putting the stripped delimiters back around `token.Value` gives the
consumed span: the bytes of the input from the first significant byte at or
after `pos`, at offset `p`, up to `newPos` (which is inside the input) are
`"` + `Value` + `"` for a string, and `//` + `Value` or `/*` + `Value` + `*/`
for a comment. -/
theorem scanToken_round_trip (input : List Nat) (pos p : Nat) (line : Int) (r : ScanResult)
    (h : scanToken input pos line = .ok r) (hp : FirstSignificant input pos p) :
    (r.token.Type_ = TokenString →
        r.newPos ≤ input.length ∧
        segment input p r.newPos = bytes "\"" ++ r.token.Value ++ bytes "\"") ∧
      (r.token.Type_ = TokenComment →
        r.newPos ≤ input.length ∧
        (segment input p r.newPos = bytes "//" ++ r.token.Value ∨
         segment input p r.newPos = bytes "/*" ++ r.token.Value ++ bytes "*/")) := by
  obtain ⟨l, ⟨_, rfl⟩ | ⟨_, hcl⟩⟩ := scanToken_at_first h hp
  · simp
  · obtain ⟨_, herr, _⟩ := classify_advances hcl
    obtain ⟨_, _, _, hnew, _⟩ := classify_layout hcl
    obtain ⟨hstr, hcom⟩ := classify_roundTrip hcl
    have hin : r.token.Type_ ≠ TokenError → r.newPos ≤ input.length := by
      intro hne
      have hnone : r.err = none := by
        by_contra hsome
        exact hne (herr.mp hsome)
      rcases hnew with hle | ⟨_, hun⟩
      · exact hle
      · rw [hnone] at hun
        simp [unterminated] at hun
    constructor
    · intro ht
      refine ⟨hin (by rw [ht]; decide), ?_⟩
      have := hstr ht
      simpa [bytes] using this
    · intro ht
      refine ⟨hin (by rw [ht]; decide), ?_⟩
      have := hcom ht
      simpa [bytes] using this

/-- An instance of `scanToken_round_trip`: a block comment after a space. -/
theorem scanToken_round_trip_witness :
    ((⟨⟨TokenComment, 1, 1, 4, bytes "ab"⟩, 8, 1, none⟩ : ScanResult).token.Type_ = TokenString →
        8 ≤ (bytes "x /*ab*/ y").length ∧
        segment (bytes "x /*ab*/ y") 2 8 = bytes "\"" ++ bytes "ab" ++ bytes "\"") ∧
      ((⟨⟨TokenComment, 1, 1, 4, bytes "ab"⟩, 8, 1, none⟩ : ScanResult).token.Type_ =
          TokenComment →
        8 ≤ (bytes "x /*ab*/ y").length ∧
        (segment (bytes "x /*ab*/ y") 2 8 = bytes "//" ++ bytes "ab" ∨
         segment (bytes "x /*ab*/ y") 2 8 = bytes "/*" ++ bytes "ab" ++ bytes "*/")) :=
  scanToken_round_trip (bytes "x /*ab*/ y") 1 2 1 ⟨⟨TokenComment, 1, 1, 4, bytes "ab"⟩, 8, 1, none⟩
    (by decide)
    (skipSpace_first 1 1 1 (2, 1) (by decide))

/-- Claim C15: whenever `scanToken` returns, the token lies inside the
consumed input: `pos <= token.Pos` and `token.Pos + token.Length <= newPos`
(for every `pos`, in particular for `0 <= pos <= len(input)`). -/
theorem scanToken_token_inside (input : List Nat) (pos : Nat) (line : Int) (r : ScanResult)
    (h : scanToken input pos line = .ok r) :
    pos ≤ r.token.Pos ∧ (r.token.Pos : Int) + r.token.Length ≤ r.newPos := by
  obtain ⟨p, l, _, hle, hcase⟩ := scanToken_cases h
  rcases hcase with ⟨_, rfl⟩ | ⟨_, hcl⟩
  · simp [hle]
  · obtain ⟨_, _, _, _, _, hpos⟩ := classify_advances hcl
    exact ⟨by omega, (classify_layout hcl).1⟩

/-- An instance of `scanToken_token_inside`: a block comment after a space. -/
theorem scanToken_token_inside_witness :
    (1 : Nat) ≤ 4 ∧ ((4 : Nat) : Int) + 1 ≤ (8 : Nat) :=
  scanToken_token_inside (bytes "x /*ab*/ y") 1 1 ⟨⟨TokenComment, 1, 1, 4, bytes "ab"⟩, 8, 1, none⟩
    (by decide)

/-- Claim C16, at a line on which it fails: `line` is a 64-bit `int` and
`line++` wraps around, so at the largest `int` a skipped CR-LF pair makes the
returned line the smallest `int` instead of `line + 1`, and the line
decreases. -/
theorem scanToken_line_overflow :
    FirstSignificant (bytes "\r\nb") 0 2 ∧
      ∃ r, scanToken (bytes "\r\nb") 0 (2 ^ 63 - 1) = .ok r ∧
        r.newLine ≠ (2 ^ 63 - 1) + crlfPairs (bytes "\r\nb") 0 (2 - 0) ∧
        r.newLine < 2 ^ 63 - 1 :=
  ⟨skipSpace_first 3 0 1 (2, 2) (by decide),
    ⟨⟨TokenIdent, 1, -2 ^ 63, 2, bytes "b"⟩, 3, -2 ^ 63, none⟩, by decide, by decide, by decide⟩

/-- Claim C16, amended: whenever `scanToken` returns and the line counter does
not overflow (`line` is a 64-bit `int` and `line` plus the number of skipped
CR-LF pairs is below `2^63`), `newLine` equals `line` plus the number of
carriage returns immediately followed by a line feed inside the leading
whitespace run that the call skipped (the bytes from `pos` up to the first
significant byte, at `p`), and `token.Line = newLine`; hence the line does not
decrease, and a bare line feed or a lone carriage return adds nothing:
scanning `a\nb` from position 1 with line 1 returns the identifier `b` with
line 1. -/
theorem scanToken_line (input : List Nat) (pos p : Nat) (line : Int) (r : ScanResult)
    (h : scanToken input pos line = .ok r) (hp : FirstSignificant input pos p)
    (hlo : -2 ^ 63 ≤ line) (hhi : line + crlfPairs input pos (p - pos) < 2 ^ 63) :
    r.newLine = line + crlfPairs input pos (p - pos) ∧ r.token.Line = r.newLine ∧
      line ≤ r.newLine ∧
      scanToken (bytes "a\nb") 1 1 = .ok ⟨⟨TokenIdent, 1, 1, 2, bytes "b"⟩, 3, 1, none⟩ ∧
      crlfPairs (bytes "\n\r \r\n") 0 5 = 1 := by
  obtain ⟨h1, h2⟩ := scanToken_line_cases h hp
  rw [iterate_incLine _ _ hlo hhi] at h1
  exact ⟨h1, h2, by omega, by decide, by decide⟩

/-- An instance of `scanToken_line`: two CR-LF pairs and a bare line feed
before an identifier. -/
theorem scanToken_line_witness :
    (7 : Int) = 5 + crlfPairs (bytes "a \r\n\n\r\nb") 1 (7 - 1) ∧ (7 : Int) = 7 ∧
      (5 : Int) ≤ 7 ∧
      scanToken (bytes "a\nb") 1 1 = .ok ⟨⟨TokenIdent, 1, 1, 2, bytes "b"⟩, 3, 1, none⟩ ∧
      crlfPairs (bytes "\n\r \r\n") 0 5 = 1 :=
  scanToken_line (bytes "a \r\n\n\r\nb") 1 7 5 ⟨⟨TokenIdent, 1, 7, 7, bytes "b"⟩, 8, 7, none⟩
    (by decide) (skipSpace_first 7 1 5 (7, 7) (by decide)) (by decide) (by decide)

/-! ## The returned cursor -/

theorem scanToken_at_end (input : List Nat) (q : Nat) (l : Int) (hq : input.length ≤ q) :
    scanToken input q l = .ok ⟨⟨TokenEOF, 0, l, q, []⟩, q, l, none⟩ := by
  unfold scanToken
  rw [skipSpace_of_stop l _ (skipCond_of_ge hq)]
  simp only [andThen]
  rw [if_pos hq]

/-- Claim C20, at an input on which it fails: after the error for an
unterminated bracket the returned cursor is `len(input) + 1`. -/
theorem scanToken_cursor_past_end :
    ∃ r, 0 ≤ (bytes "(a").length ∧ scanToken (bytes "(a") 0 1 = .ok r ∧
      r.token.Type_ = TokenError ∧ ¬ r.newPos ≤ (bytes "(a").length :=
  ⟨⟨⟨TokenError, 2, 1, 0, bytes "(a"⟩, 3, 1, some (.unclosedDelimiter 1 0 (bytes "("))⟩,
    by decide, by decide, by decide, by decide⟩

/-- Claim C20, amended: for `0 <= pos <= len(input)`, whenever `scanToken`
returns, `newPos <= len(input)` unless the returned error reports an
unterminated bracket, string or comment, in which case
`newPos = len(input) + 1`; and a call of `scanToken` with a cursor at or
beyond `len(input)` returns `TokenEOF` at that cursor with a nil error, so the
returned cursor can always be passed to the next call. -/
theorem scanToken_cursor_bound (input : List Nat) (pos : Nat) (line : Int) (r : ScanResult)
    (hpos : pos ≤ input.length) (h : scanToken input pos line = .ok r) :
    (unterminated r.err = false → r.newPos ≤ input.length) ∧
      (unterminated r.err = true → r.newPos = input.length + 1) ∧
      ∀ q l, input.length ≤ q →
        scanToken input q l = .ok ⟨⟨TokenEOF, 0, l, q, []⟩, q, l, none⟩ := by
  refine ⟨?_, ?_, scanToken_at_end input⟩
  · obtain ⟨p, l, hskip, _, hcase⟩ := scanToken_cases h
    have hp := firstSignificant_le (skipSpace_first _ _ _ _ hskip) hpos
    rcases hcase with ⟨_, rfl⟩ | ⟨_, hcl⟩
    · intro _; exact hp
    · obtain ⟨_, _, _, hnew, _⟩ := classify_layout hcl
      intro hun
      rcases hnew with hle | ⟨_, hun2⟩
      · exact hle
      · rw [hun] at hun2
        exact Bool.noConfusion hun2
  · obtain ⟨p, l, _, _, hcase⟩ := scanToken_cases h
    rcases hcase with ⟨_, rfl⟩ | ⟨_, hcl⟩
    · intro hun; simp [unterminated] at hun
    · exact (classify_layout hcl).2.2.2.2.1

/-- An instance of `scanToken_cursor_bound`: an unterminated string. -/
theorem scanToken_cursor_bound_witness :
    (unterminated (some (LexError.unterminatedString 1 2)) = false →
        7 ≤ (bytes "x \"abc").length) ∧
      (unterminated (some (LexError.unterminatedString 1 2)) = true →
        7 = (bytes "x \"abc").length + 1) ∧
      ∀ q l, (bytes "x \"abc").length ≤ q →
        scanToken (bytes "x \"abc") q l = .ok ⟨⟨TokenEOF, 0, l, q, []⟩, q, l, none⟩ :=
  scanToken_cursor_bound (bytes "x \"abc") 1 1
    ⟨⟨TokenError, 4, 1, 2, bytes "\"abc"⟩, 7, 1, some (.unterminatedString 1 2)⟩
    (by decide) (by decide)

/-! ## Operators -/

theorem operatorAlphabet_spec (c : Nat) :
    c ∈ operatorAlphabet ↔ Contains operators (stringOfByte c) = true := by
  constructor
  · intro h
    simp only [operatorAlphabet, bytes, String.toList, List.map, List.mem_cons,
      List.mem_singleton, List.not_mem_nil, or_false] at h
    rcases h with h | h | h | h | h | h | h | h | h | h | h | h | h <;> subst h <;> decide
  · intro h
    have hc := operator_ascii h
    rw [stringOfByte_ascii hc] at h
    simp [Contains, operators, bytes] at h
    simp [operatorAlphabet, bytes]
    omega

end Lexer
namespace Lexer
open TokenType

theorem classify_operator {input : List Nat} {p c : Nat} (line : Int)
    (h : input[p]? = some c) (hc : c ∈ operatorAlphabet) :
    classify input p line = scanOperator input p line := by
  have hop := (operatorAlphabet_spec c).mp hc
  have hstr : (andThen (stringAt input p) fun s => Outcome.ok (Contains operators s))
      = .ok true := by
    simp [stringAt, h, andThen, hop]
  simp only [operatorAlphabet, bytes, String.toList, List.map, List.mem_cons,
    List.mem_singleton, List.not_mem_nil, or_false] at hc
  unfold classify
  rw [hstr]
  rcases hc with hc | hc | hc | hc | hc | hc | hc | hc | hc | hc | hc | hc | hc <;> subst hc <;>
    simp [delimiterCond, test_of_get h, branch, andAlso, orElse, IsLetter, IsDigit]

theorem operatorAlphabet_not_space {c : Nat} (hc : c ∈ operatorAlphabet) :
    IsSpace c = false := by
  simp only [operatorAlphabet, bytes, String.toList, List.map, List.mem_cons,
    List.mem_singleton, List.not_mem_nil, or_false] at hc
  rcases hc with hc | hc | hc | hc | hc | hc | hc | hc | hc | hc | hc | hc | hc <;> subst hc <;>
    rfl

/-- Claim C13: when the first significant byte `c1`, at offset `p`, belongs to
the operator alphabet and the next byte `c2` belongs to it too, and `c1 c2` is
neither `//` nor `/*`, `scanToken` returns a `TokenOperator` token with
`Value = c1 c2`, `Length = 2`, `Pos = p`, `newPos = p + 2` and a nil error,
whether or not `c1 c2` is one of the listed operators. On `a == b` the driving
loop prints exactly the identifier `a` (`Pos` 0), the operator `==` (`Pos` 2,
`Length` 2) and the identifier `b` (`Pos` 5). -/
theorem scanToken_operator_pair (input : List Nat) (pos p : Nat) (line : Int) (c1 c2 : Nat)
    (hle : pos ≤ p)
    (hws : ∀ i, pos ≤ i → i < p → ∃ d, input[i]? = some d ∧ IsSpace d = true)
    (h1 : input[p]? = some c1) (h2 : input[p + 1]? = some c2)
    (hc1 : c1 ∈ operatorAlphabet) (hc2 : c2 ∈ operatorAlphabet)
    (hcomment : ¬ (c1 = 47 ∧ (c2 = 47 ∨ c2 = 42))) :
    (∃ l, scanToken input pos line =
        .ok ⟨⟨TokenOperator, 2, l, p, [c1, c2]⟩, p + 2, l, none⟩) ∧
      runMain (bytes "a == b") =
        ⟨[.token ⟨TokenIdent, 1, 1, 0, bytes "a"⟩, .token ⟨TokenOperator, 2, 1, 2, bytes "=="⟩,
          .token ⟨TokenIdent, 1, 1, 5, bytes "b"⟩], 3, none⟩ := by
  refine ⟨?_, by decide⟩
  obtain ⟨l, hl⟩ := scanToken_at line hle hws h1 (operatorAlphabet_not_space hc1)
  refine ⟨l, ?_⟩
  rw [hl, classify_operator l h1 hc1]
  have hop2 := (operatorAlphabet_spec c2).mp hc2
  have hcond : andAlso (test input p (· == 47))
      (orElse (test input (p + 1) (· == 47)) (test input (p + 1) (· == 42))) = .ok false := by
    rw [test_of_get h1, test_of_get h2, test_of_get h2]
    by_cases e1 : c1 = 47
    · have e2 : ¬ (c2 = 47 ∨ c2 = 42) := fun h => hcomment ⟨e1, h⟩
      have e3 : (c2 == 47) = false := by simp; intro h; exact e2 (Or.inl h)
      have e4 : (c2 == 42) = false := by simp; intro h; exact e2 (Or.inr h)
      simp [andAlso, orElse, e1, e3, e4]
    · have e3 : (c1 == 47) = false := by simpa using e1
      simp [andAlso, e3]
  have hlen : p + 2 ≤ input.length := by
    have := lt_of_get h2
    omega
  have hseg : segment input p (p + 2) = [c1, c2] := by
    rw [segment_cons h1 (by omega), segment_one h2]
  unfold scanOperator
  rw [hcond]
  simp only [branch]
  unfold scanOperatorToken
  simp only [stringAt, h2, andThen, hop2, if_true]
  rw [slice_eq_ok.mpr ⟨by omega, hlen, rfl⟩, hseg]

/-- An instance of `scanToken_operator_pair`: the unlisted pair `=+`. -/
theorem scanToken_operator_pair_witness :
    (∃ l, scanToken (bytes "x =+ 1") 1 1 =
        .ok ⟨⟨TokenOperator, 2, l, 2, [61, 43]⟩, 2 + 2, l, none⟩) ∧
      runMain (bytes "a == b") =
        ⟨[.token ⟨TokenIdent, 1, 1, 0, bytes "a"⟩, .token ⟨TokenOperator, 2, 1, 2, bytes "=="⟩,
          .token ⟨TokenIdent, 1, 1, 5, bytes "b"⟩], 3, none⟩ :=
  scanToken_operator_pair (bytes "x =+ 1") 1 2 1 61 43 (by decide)
    (by
      intro i h1 h2
      have : i = 1 := by omega
      subst this
      exact ⟨32, by decide, by decide⟩)
    (by decide) (by decide) (by decide) (by decide) (by decide)

/-! ## Brackets with a closing bracket somewhere behind them -/

/-- Claim C17: when the first significant byte, at offset `p`, is `(`, `[` or
`{` and the closing bracket of the same kind occurs somewhere after `p`,
`scanToken` returns a `TokenDelimiter` token that holds only that byte
(`Value` of length 1, `Length = 1`, `Pos = p`) with `newPos = p + 1` and a nil
error: the look-ahead is not consumed and no nesting depth is counted. On the
unbalanced input `(a(b)` both `(` are returned as delimiters and the driving
loop reports no error. -/
theorem scanToken_open_bracket (input : List Nat) (pos p q : Nat) (line : Int) (o close : Nat)
    (hle : pos ≤ p)
    (hws : ∀ i, pos ≤ i → i < p → ∃ d, input[i]? = some d ∧ IsSpace d = true)
    (hopen : input[p]? = some o)
    (ho : (o, close) ∈ [(40, 41), (91, 93), (123, 125)])
    (hpq : p < q) (hclose : input[q]? = some close) :
    (∃ l, scanToken input pos line =
        .ok ⟨⟨TokenDelimiter, 1, l, p, [o]⟩, p + 1, l, none⟩) ∧
      runMain (bytes "(a(b)") =
        ⟨[.token ⟨TokenDelimiter, 1, 1, 0, bytes "("⟩, .token ⟨TokenIdent, 1, 1, 1, bytes "a"⟩,
          .token ⟨TokenDelimiter, 1, 1, 2, bytes "("⟩, .token ⟨TokenIdent, 1, 1, 3, bytes "b"⟩,
          .token ⟨TokenDelimiter, 1, 1, 4, bytes ")"⟩], 5, none⟩ := by
  refine ⟨?_, by decide⟩
  have hsp : IsSpace o = false := by
    simp only [List.mem_cons, Prod.mk.injEq, List.mem_singleton, List.not_mem_nil, or_false] at ho
    rcases ho with ⟨rfl, _⟩ | ⟨rfl, _⟩ | ⟨rfl, _⟩ <;> rfl
  have ho128 : o < 128 := by
    simp only [List.mem_cons, Prod.mk.injEq, List.mem_singleton, List.not_mem_nil, or_false] at ho
    omega
  obtain ⟨l, hl⟩ := scanToken_at line hle hws hopen hsp
  refine ⟨l, ?_⟩
  have hex : ∃ i, p < i ∧ input[i]? = some close := ⟨q, hpq, hclose⟩
  obtain ⟨hf1, hf2⟩ := Nat.find_spec hex
  have hmin : ∀ i, p + 1 ≤ i → i < Nat.find hex → input[i]? ≠ some close := by
    intro i hi hi2 hc
    exact Nat.find_min hex hi2 ⟨by omega, hc⟩
  have hflt := lt_of_get hf2
  rw [hl, classify_bracket l hopen ho]
  unfold scanBracket
  rw [untilLoop_found (by omega) hf2 hmin]
  simp only [andThen]
  rw [if_neg (by omega), stringAt_ascii hopen ho128]

/-- An instance of `scanToken_open_bracket`: the first `[` of `[[1]`. -/
theorem scanToken_open_bracket_witness :
    (∃ l, scanToken (bytes " [[1]") 0 1 =
        .ok ⟨⟨TokenDelimiter, 1, l, 1, [91]⟩, 1 + 1, l, none⟩) ∧
      runMain (bytes "(a(b)") =
        ⟨[.token ⟨TokenDelimiter, 1, 1, 0, bytes "("⟩, .token ⟨TokenIdent, 1, 1, 1, bytes "a"⟩,
          .token ⟨TokenDelimiter, 1, 1, 2, bytes "("⟩, .token ⟨TokenIdent, 1, 1, 3, bytes "b"⟩,
          .token ⟨TokenDelimiter, 1, 1, 4, bytes ")"⟩], 5, none⟩ :=
  scanToken_open_bracket (bytes " [[1]") 0 1 4 1 91 93 (by decide)
    (by
      intro i h1 h2
      have : i = 0 := by omega
      subst this
      exact ⟨32, by decide, by decide⟩)
    (by decide) (by decide) (by decide) (by decide)

/-! ## Length and position of a token -/

/-- For every kind but `TokenComment` and `TokenError`, the length of a
returned token is the number of bytes of its value. -/
theorem scanToken_length_of_value (input : List Nat) (pos : Nat) (line : Int) (r : ScanResult)
    (h : scanToken input pos line = .ok r) (hc : r.token.Type_ ≠ TokenComment)
    (he : r.token.Type_ ≠ TokenError) : r.token.Length = r.token.Value.length := by
  obtain ⟨p, l, _, _, hcase⟩ := scanToken_cases h
  rcases hcase with ⟨_, rfl⟩ | ⟨_, hcl⟩
  · rfl
  · exact (classify_layout hcl).2.2.2.2.2 hc he

/-- An instance of `scanToken_length_of_value`: a string literal. -/
theorem scanToken_length_of_value_witness :
    (2 : Int) = ((bytes "ab").length : Int) :=
  scanToken_length_of_value (bytes "x \"ab\"") 1 1 ⟨⟨TokenString, 2, 1, 2, bytes "ab"⟩, 6, 1, none⟩
    (by decide) (by decide) (by decide)

/-- Claim C18, at inputs on which it fails: for a multi-line comment the
length is computed as `pos - start + 1 - 2`, as in the string case, although
`start` is already past the `/*`, so `Length` is one less than the number of
characters of `Value`; and the error token of an unclosed comment has a
`Value` that includes the `/*` and a `Length` that does not. For a
single-line comment, as for the other kinds, the two agree. -/
theorem scanToken_comment_length_mismatch :
    scanToken (bytes "/*ab*/") 0 1 = .ok ⟨⟨TokenComment, 1, 1, 2, bytes "ab"⟩, 6, 1, none⟩ ∧
    (bytes "ab").length = 2 ∧
    scanToken (bytes "/* ab") 0 1 =
      .ok ⟨⟨TokenError, 3, 1, 2, bytes "/* ab"⟩, 6, 1, some (.unclosedComment 1 2)⟩ ∧
    (bytes "/* ab").length = 5 ∧
    scanToken (bytes "//ab\r\n") 0 1 = .ok ⟨⟨TokenComment, 2, 1, 2, bytes "ab"⟩, 4, 1, none⟩ := by
  decide

/-- The position of a returned token is the offset `p` of the first
significant byte, except for a comment and for the error of an unclosed
comment, where it is `p + 2`; for `TokenEOF` and `pos <= len(input)` it is
`len(input)`. -/
theorem scanToken_position (input : List Nat) (pos p : Nat) (line : Int) (r : ScanResult)
    (h : scanToken input pos line = .ok r) (hp : FirstSignificant input pos p) :
    (r.token.Type_ ≠ TokenComment → commentError r.err = false → r.token.Pos = p) ∧
      (r.token.Type_ = TokenComment ∨ commentError r.err = true → r.token.Pos = p + 2) ∧
      (r.token.Type_ = TokenEOF → pos ≤ input.length → r.token.Pos = input.length) := by
  obtain ⟨l, ⟨hge, rfl⟩ | ⟨_, hcl⟩⟩ := scanToken_at_first h hp
  · refine ⟨fun _ _ => rfl, ?_, fun _ hpos => ?_⟩
    · simp [commentError]
    · have := firstSignificant_le hp hpos
      simp only
      omega
  · obtain ⟨_, hpos1, hpos2, _⟩ := classify_layout hcl
    obtain ⟨_, _, hne, _⟩ := classify_advances hcl
    refine ⟨fun hc he => ?_, hpos2, fun heof => absurd heof hne⟩
    rcases hpos1 with h1 | ⟨_, h2 | h2⟩
    · exact h1
    · exact absurd h2 hc
    · rw [he] at h2
      exact Bool.noConfusion h2

/-- An instance of `scanToken_position`: a comment after a space. -/
theorem scanToken_position_witness :
    (TokenComment ≠ TokenComment → commentError none = false → 4 = 2) ∧
      (TokenComment = TokenComment ∨ commentError none = true → 4 = 2 + 2) ∧
      (TokenComment = TokenEOF → 1 ≤ (bytes "x //ab\r\n").length →
        4 = (bytes "x //ab\r\n").length) :=
  scanToken_position (bytes "x //ab\r\n") 1 2 1 ⟨⟨TokenComment, 2, 1, 4, bytes "ab"⟩, 6, 1, none⟩
    (by decide) (skipSpace_first 1 1 1 (2, 1) (by decide))

/-- Claim C19, at inputs on which it fails: in the comment cases `start` is
set to `pos + 2` and the token is built with `Pos: start`, so the `Pos` of a
comment token (and of the error token of an unclosed comment) is two bytes
after the offset of its opening `/`, which is where whitespace skipping
stopped; the `Pos` of a string token is the offset of its opening quote. -/
theorem scanToken_comment_position :
    FirstSignificant (bytes "x //ab\r\n") 1 2 ∧
    scanToken (bytes "x //ab\r\n") 1 1 =
      .ok ⟨⟨TokenComment, 2, 1, 4, bytes "ab"⟩, 6, 1, none⟩ ∧
    scanToken (bytes "x /*ab*/") 1 1 =
      .ok ⟨⟨TokenComment, 1, 1, 4, bytes "ab"⟩, 8, 1, none⟩ ∧
    scanToken (bytes "x /*ab") 1 1 =
      .ok ⟨⟨TokenError, 2, 1, 4, bytes "/*ab"⟩, 7, 1, some (.unclosedComment 1 4)⟩ ∧
    scanToken (bytes "x \"ab\"") 1 1 = .ok ⟨⟨TokenString, 2, 1, 2, bytes "ab"⟩, 6, 1, none⟩ :=
  ⟨skipSpace_first 1 1 1 (2, 1) (by decide), by decide, by decide, by decide, by decide⟩

/-! ## Comments -/

theorem classify_slash {input : List Nat} {p : Nat} (line : Int) (h : input[p]? = some 47) :
    classify input p line = scanOperator input p line :=
  classify_operator line h (by decide)

theorem scanOperator_line_comment {input : List Nat} {p : Nat} (line : Int)
    (h0 : input[p]? = some 47) (h1 : input[p + 1]? = some 47) :
    scanOperator input p line = scanLineComment input p line := by
  unfold scanOperator
  rw [test_of_get h0, test_of_get h1]
  simp [branch, andAlso, orElse]

theorem scanOperator_block_comment {input : List Nat} {p : Nat} (line : Int)
    (h0 : input[p]? = some 47) (h1 : input[p + 1]? = some 42) :
    scanOperator input p line = scanBlockComment input p line := by
  unfold scanOperator
  rw [test_of_get h0, test_of_get h1, test_of_get h1]
  simp [branch, andAlso, orElse]

theorem starSlashAt_of_get {input : List Nat} {pos c d : Nat}
    (hc : input[pos]? = some c) (hd : input[pos + 1]? = some d) :
    starSlashAt input pos = .ok (c == 42 && d == 47) := by
  unfold starSlashAt
  rw [test_of_get hc, test_of_get hd]
  cases c == 42 <;> simp [andAlso]

/-- The bytes of a text between a two-byte opening and a two-byte closing. -/
theorem get_wrapped (a b : Nat) (t tail : List Nat) (i : Nat) :
    (a :: b :: (t ++ tail))[i + 2]? = (t ++ tail)[i]? := by
  simp

/-- A single-line comment with a non-empty text `t` that contains no carriage
return, ended by CR-LF: the comment token has the value `t`, the cursor stops
at the CR-LF, and the next call returns `TokenEOF` with the line incremented
once. -/
theorem scanToken_line_comment (t : List Nat) (n : Int) (hne : t ≠ []) (hcr : 13 ∉ t) :
    scanToken (bytes "//" ++ t ++ bytes "\r\n") 0 n =
        .ok ⟨⟨TokenComment, (t.length : Int), n, 2, t⟩, 2 + t.length, n, none⟩ ∧
      scanToken (bytes "//" ++ t ++ bytes "\r\n") (2 + t.length) n =
        .ok ⟨⟨TokenEOF, 0, incLine n, t.length + 4, []⟩, t.length + 4, incLine n, none⟩ := by
  have hin : bytes "//" ++ t ++ bytes "\r\n" = 47 :: 47 :: (t ++ [13, 10]) := by
    simp [bytes]
  rw [hin]
  generalize hinput : 47 :: 47 :: (t ++ [13, 10]) = input
  have hlen : input.length = t.length + 4 := by
    rw [← hinput]; simp
  have hat : ∀ i, input[i + 2]? = (t ++ [13, 10])[i]? := by
    intro i; rw [← hinput]; exact get_wrapped 47 47 t [13, 10] i
  have h0 : input[0]? = some 47 := by rw [← hinput]; simp
  have h1 : input[0 + 1]? = some 47 := by rw [← hinput]; simp
  have hcrq : input[2 + t.length]? = some 13 := by
    rw [Nat.add_comm, hat, List.getElem?_append_right (le_refl _)]; simp
  have hlfq : input[2 + t.length + 1]? = some 10 := by
    have : 2 + t.length + 1 = (t.length + 1) + 2 := by omega
    rw [this, hat, List.getElem?_append_right (by omega)]; simp
  have htpos : 0 < t.length := List.length_pos.mpr hne
  constructor
  · rw [scanToken_at_start n h0 (by decide), classify_slash n h0,
      scanOperator_line_comment n h0 h1]
    have hbody : ∀ i, 0 + 2 + 1 ≤ i → i < 2 + t.length →
        lineCommentCond input i = .ok true ∧ noBreak i = .ok false := by
      intro i hi hi2
      refine ⟨?_, rfl⟩
      obtain ⟨j, rfl⟩ : ∃ j, i = j + 2 := ⟨i - 2, by omega⟩
      have hj : j < t.length := by omega
      have hget : input[j + 2]? = some t[j] := by
        rw [hat, List.getElem?_append_left hj, List.getElem?_eq_getElem hj]
      have hne13 : t[j] ≠ 13 := fun h => hcr (h ▸ List.getElem_mem hj)
      unfold lineCommentCond
      rw [inBounds_of_lt (lt_of_get hget), crlfAt_of_ne hget hne13]
      rfl
    have hstop : lineCommentCond input (2 + t.length) = .ok false := by
      unfold lineCommentCond
      rw [inBounds_of_lt (lt_of_get hcrq), crlfAt_of_get hcrq hlfq]
      rfl
    have hseg : segment input (0 + 2) (2 + t.length) = t := by
      unfold segment
      rw [← hinput]
      simp
    unfold scanLineComment
    simp only []
    rw [scanLoop_run (2 + t.length) _ _ (by omega) (by omega) hbody hstop]
    simp only [andThen]
    rw [slice_eq_ok.mpr ⟨by omega, by omega, rfl⟩, hseg]
    simp only [Outcome.ok.injEq, ScanResult.mk.injEq, Token.mk.injEq, and_true, true_and]
    push_cast
    omega
  · have hf : input.length - (2 + t.length) = 1 + 1 := by omega
    have hspace10 : skipCond input (2 + t.length + 1) = .ok true := by
      rw [skipCond_of_get hlfq]; rfl
    have hspace13 : skipCond input (2 + t.length) = .ok true := by
      rw [skipCond_of_get hcrq]; rfl
    have hend : skipCond input (2 + t.length + 1 + 1) = .ok false :=
      skipCond_of_ge (by omega)
    have hnocr : crlfAt input (2 + t.length + 1) = .ok false :=
      crlfAt_of_ne hlfq (by decide)
    have hgot : input[2 + t.length + 1 + 1]? = none :=
      List.getElem?_eq_none (by omega)
    have hcrlf : crlfAt input (2 + t.length) = .ok true := by
      rw [crlfAt_of_get hcrq hlfq]; rfl
    have hskip : skipSpace input (1 + 1) (2 + t.length) n =
        .ok (2 + t.length + 1 + 1, incLine n) := by
      rw [skipSpace, hspace13]
      simp only [hcrlf]
      rw [skipSpace, hspace10]
      simp only [hnocr]
      rw [skipSpace, hend]
    unfold scanToken
    rw [hf, hskip]
    simp only [andThen]
    rw [if_pos (by omega)]
    have : 2 + t.length + 1 + 1 = t.length + 4 := by omega
    rw [this]

/-- An instance of `scanToken_line_comment`: the text ` comment`. -/
theorem scanToken_line_comment_witness :
    scanToken (bytes "//" ++ bytes " comment" ++ bytes "\r\n") 0 1 =
        .ok ⟨⟨TokenComment, ((bytes " comment").length : Int), 1, 2, bytes " comment"⟩,
          2 + (bytes " comment").length, 1, none⟩ ∧
      scanToken (bytes "//" ++ bytes " comment" ++ bytes "\r\n") (2 + (bytes " comment").length) 1 =
        .ok ⟨⟨TokenEOF, 0, incLine 1, (bytes " comment").length + 4, []⟩,
          (bytes " comment").length + 4, incLine 1, none⟩ :=
  scanToken_line_comment (bytes " comment") 1 (by decide) (by decide)

/-- Claim C11, at inputs on which it fails: after `start := pos + 2` the
scan for the end of the line begins at `start + 1`, so the first byte after
`//` is never tested. For the empty text the CR-LF itself is skipped: the
value of the comment is the CR-LF (or everything up to the next CR-LF, the
following line included), `newPos` is 4 instead of 2, and the next call
returns `TokenEOF` with the line unchanged. For ` comment` the value is
` comment` and the next call returns `TokenEOF` with line 2. -/
theorem scanToken_empty_line_comment :
    scanToken (bytes "//\r\n") 0 1 = .ok ⟨⟨TokenComment, 2, 1, 2, bytes "\r\n"⟩, 4, 1, none⟩ ∧
    scanToken (bytes "//\r\n") 4 1 = .ok ⟨⟨TokenEOF, 0, 1, 4, []⟩, 4, 1, none⟩ ∧
    scanToken (bytes "//\r\nx = 1\r\n") 0 1 =
      .ok ⟨⟨TokenComment, 7, 1, 2, bytes "\r\nx = 1"⟩, 9, 1, none⟩ ∧
    scanToken (bytes "// comment\r\n") 0 1 =
      .ok ⟨⟨TokenComment, 8, 1, 2, bytes " comment"⟩, 10, 1, none⟩ ∧
    scanToken (bytes "// comment\r\n") 10 1 = .ok ⟨⟨TokenEOF, 0, 2, 12, []⟩, 12, 2, none⟩ := by
  decide

/-- A multi-line comment with a non-empty body `b` that does not contain
`*/`: the comment token has the value `b` and `newPos = len(b) + 4`; its
`Length` is `len(b) - 1`. -/
theorem scanToken_block_comment (b : List Nat) (n : Int) (hne : b ≠ [])
    (hno : ∀ i, b[i]? = some 42 → b[i + 1]? ≠ some 47) :
    scanToken (bytes "/*" ++ b ++ bytes "*/") 0 n =
      .ok ⟨⟨TokenComment, (b.length : Int) - 1, n, 2, b⟩, b.length + 4, n, none⟩ := by
  have hin : bytes "/*" ++ b ++ bytes "*/" = 47 :: 42 :: (b ++ [42, 47]) := by
    simp [bytes]
  rw [hin]
  generalize hinput : 47 :: 42 :: (b ++ [42, 47]) = input
  have hlen : input.length = b.length + 4 := by
    rw [← hinput]; simp
  have hat : ∀ i, input[i + 2]? = (b ++ [42, 47])[i]? := by
    intro i; rw [← hinput]; exact get_wrapped 47 42 b [42, 47] i
  have h0 : input[0]? = some 47 := by rw [← hinput]; simp
  have h1 : input[0 + 1]? = some 42 := by rw [← hinput]; simp
  have hstar : input[2 + b.length]? = some 42 := by
    rw [Nat.add_comm, hat, List.getElem?_append_right (le_refl _)]; simp
  have hslash : input[2 + b.length + 1]? = some 47 := by
    have : 2 + b.length + 1 = (b.length + 1) + 2 := by omega
    rw [this, hat, List.getElem?_append_right (by omega)]; simp
  have hbpos : 0 < b.length := List.length_pos.mpr hne
  rw [scanToken_at_start n h0 (by decide), classify_slash n h0,
    scanOperator_block_comment n h0 h1]
  have hinner : ∀ i, 0 + 2 + 1 ≤ i → i < 2 + b.length → starSlashAt input i = .ok false := by
    intro i hi hi2
    obtain ⟨j, rfl⟩ : ∃ j, i = j + 2 := ⟨i - 2, by omega⟩
    have hj : j < b.length := by omega
    have hget : input[j + 2]? = b[j]? := by
      rw [hat, List.getElem?_append_left hj]
    have hget2 : input[j + 2]? = some b[j] := by
      rw [hget, List.getElem?_eq_getElem hj]
    by_cases hnext : j + 1 < b.length
    · have hget3 : input[j + 2 + 1]? = some b[j + 1] := by
        have : j + 2 + 1 = (j + 1) + 2 := by omega
        rw [this, hat, List.getElem?_append_left hnext, List.getElem?_eq_getElem hnext]
      rw [starSlashAt_of_get hget2 hget3]
      by_cases h42 : b[j] = 42
      · have hb : b[j]? = some 42 := by rw [List.getElem?_eq_getElem hj, h42]
        have := hno j hb
        rw [List.getElem?_eq_getElem hnext] at this
        have h47 : b[j + 1] ≠ 47 := fun h => this (by rw [h])
        simp [h47]
      · simp [h42]
    · have hjl : j + 1 = b.length := by omega
      have hget3 : input[j + 2 + 1]? = some 42 := by
        have : j + 2 + 1 = 2 + b.length := by omega
        rw [this, hstar]
      rw [starSlashAt_of_get hget2 hget3]
      simp
  have hbody : ∀ i, 0 + 2 + 1 ≤ i → i < 2 + b.length →
      blockCommentCond input i = .ok true ∧ starSlashAt input i = .ok false := by
    intro i hi hi2
    refine ⟨?_, hinner i hi hi2⟩
    unfold blockCommentCond
    rw [inBounds_of_lt (by omega), hinner i hi hi2]
    rfl
  have hstop : blockCommentCond input (2 + b.length) = .ok false := by
    unfold blockCommentCond
    rw [inBounds_of_lt (lt_of_get hstar), starSlashAt_of_get hstar hslash]
    rfl
  have hseg : segment input (0 + 2) (2 + b.length) = b := by
    unfold segment
    rw [← hinput]
    simp
  unfold scanBlockComment
  simp only []
  rw [scanLoop_run (2 + b.length) _ _ (by omega) (by omega) hbody hstop]
  simp only [andThen]
  rw [if_neg (by omega), slice_eq_ok.mpr ⟨by omega, by omega, rfl⟩, hseg]
  simp only [Outcome.ok.injEq, ScanResult.mk.injEq, Token.mk.injEq, and_true, true_and]
  constructor
  · push_cast; omega
  · omega

/-- An instance of `scanToken_block_comment`: the body `a*b`. -/
theorem scanToken_block_comment_witness :
    scanToken (bytes "/*" ++ bytes "a*b" ++ bytes "*/") 0 1 =
      .ok ⟨⟨TokenComment, ((bytes "a*b").length : Int) - 1, 1, 2, bytes "a*b"⟩,
        (bytes "a*b").length + 4, 1, none⟩ :=
  scanToken_block_comment (bytes "a*b") 1 (by decide)
    (by
      intro i h
      by_cases hi : i < 3
      · have : i = 0 ∨ i = 1 ∨ i = 2 := by omega
        rcases this with rfl | rfl | rfl <;> revert h <;> decide
      · rw [List.getElem?_eq_none (by simpa [bytes] using Nat.le_of_not_lt hi)] at h
        exact Option.noConfusion h)

/-- Claim C12, at inputs on which it fails: after `start := pos + 2` the
search for `*/` begins at `start + 1`, so a `*/` that directly follows the
`/*` is not seen. For the empty body, `/**/`, the search runs to the end of
the input and the call returns the `TokenError` of an unclosed comment with
`newPos = 5` although the comment is closed; when more text follows, the
comment extends to the next `*/`. For a non-empty body the comment token has
the body as its value. -/
theorem scanToken_empty_block_comment :
    scanToken (bytes "/**/") 0 1 =
      .ok ⟨⟨TokenError, 2, 1, 2, bytes "/**/"⟩, 5, 1, some (.unclosedComment 1 2)⟩ ∧
    scanToken (bytes "/**/ x /* y */") 0 1 =
      .ok ⟨⟨TokenComment, 9, 1, 2, bytes "*/ x /* y "⟩, 14, 1, none⟩ ∧
    scanToken (bytes "/*ab*/") 0 1 = .ok ⟨⟨TokenComment, 1, 1, 2, bytes "ab"⟩, 6, 1, none⟩ := by
  decide

end Lexer
